import Mathlib

set_option maxHeartbeats 1000000
set_option maxRecDepth 40000

/-!
Verification of the storm probabilistic model checker against its specification.

The development has three parts:
* a model of the state elimination engine (the `ElimState` material), including
  its reachability semantics as a least fixed point over `ℝ≥0∞`;
* a model of the bit vector storage (`storage/BitVector.cpp`), bucket-exact;
* a model of the Markov automaton closing operation (`models/sparse/MarkovAutomaton.cpp`).
-/

namespace StormVerify

/--
Modelled from the spec: the state of the elimination core (§4.2, §3), in probability
mode, for a chain restricted to the maybe-state subsystem. The elimination engine's
source (`SparseDtmcEliminationModelChecker` and its flexible matrices) is not part of
the repository snapshot, so this is built from the specification's algorithm text.
`P p t` is the transition weight from state `p` to state `t` (the flexible forward
matrix, in dense form) and `oneStep p` is the one-step probability of directly
reaching an absorbing target from `p`.
-/
structure ElimState (n : ℕ) where
  P : Fin n → Fin n → ℚ
  oneStep : Fin n → ℚ

/--
Modelled from the spec: eliminating a single state `s` (§4.2, steps 1-3).
With self-loop probability `L = P s s`: every other outgoing entry of `s` and the
one-step value of `s` are scaled by `1/(1-L)` (step 2, the self-entry is removed);
every predecessor `p ≠ s` with weight `m = P p s` to `s` has that weight zeroed and
its row merged with the rescaled row of `s` (`P p t += m * P s t` for `t ≠ s`),
and `oneStep p += m * oneStep s` with the rescaled `oneStep s` (step 3).
The row of `s` is retained in place (the spec's step 5 clearing is optional).
-/
def eliminate {n : ℕ} (s : Fin n) (M : ElimState n) : ElimState n :=
  let c : ℚ := (1 - M.P s s)⁻¹
  { P := fun p t =>
      if p = s then (if t = s then 0 else c * M.P s t)
      else if t = s then 0
      else M.P p t + M.P p s * (c * M.P s t)
    oneStep := fun p =>
      if p = s then c * M.oneStep s
      else M.oneStep p + M.P p s * (c * M.oneStep s) }

/--
Substochasticity of an elimination state: all weights are nonnegative and every
row's outgoing weights plus its one-step probability sum to at most one. This is
the sound relaxation of the spec's conservation property that is preserved by
elimination (mass may leak to probability-0 states, see the C3 analysis).
-/
def Stochastic {n : ℕ} (M : ElimState n) : Prop :=
  (∀ p t, 0 ≤ M.P p t) ∧ (∀ p, 0 ≤ M.oneStep p) ∧
    ∀ p, (∑ t, M.P p t) + M.oneStep p ≤ 1

instance {n : ℕ} (M : ElimState n) : Decidable (Stochastic M) := by
  unfold Stochastic; infer_instance

/--
The 2-state chain of the self-loop rescaling test (§8): state `0` is `A` with
self-loop `1/2` and edge of weight `1/2` to state `1 = B`; `B` is absorbing with
one-step probability `1`, and `A` has one-step probability `0`.
-/
def chainAB : ElimState 2 :=
  { P := fun p _ => if p = 0 then 1/2 else 0
    oneStep := fun p => if p = 1 then 1 else 0 }

/--
C2, counterexample: in the literal 2-state configuration of the claim (`A` has
one-step probability `0`), eliminating `A` rescales `oneStep[A]` to `2 * 0 = 0`,
not `1.0`: the value `1.0` instead appears as the rescaled transition weight
from `A` to `B`.
-/
theorem c2_oneStep_counterexample :
    ¬ ((eliminate 0 chainAB).oneStep 0 = 1) := by
  norm_num [eliminate, chainAB, Fin.ext_iff]

/--
C2, amended: eliminating `A` in the 2-state chain yields the rescaled outgoing
weight `P A B = 0.5 * (1/(1-0.5)) = 1.0` exactly, while `oneStep[A]` stays `0`;
in general, when the eliminated state `s` has self-loop weight `L` with
`0 < L < 1`, every other outgoing entry of `s` and its one-step value are scaled
by `1/(1-L)`.
-/
theorem c2_selfloop_rescaling :
    ((eliminate 0 chainAB).P 0 1 = 1 ∧ (eliminate 0 chainAB).oneStep 0 = 0) ∧
    (∀ (n : ℕ) (M : ElimState n) (s t : Fin n), t ≠ s →
      0 < M.P s s → M.P s s < 1 →
      (eliminate s M).P s t = M.P s t * (1 - M.P s s)⁻¹ ∧
      (eliminate s M).oneStep s = M.oneStep s * (1 - M.P s s)⁻¹) := by
  constructor
  · constructor
    · norm_num [eliminate, chainAB, Fin.ext_iff]
    · norm_num [eliminate, chainAB, Fin.ext_iff]
  · intro n M s t ht _ _
    constructor
    · simp [eliminate, ht]
      ring
    · simp [eliminate]
      ring

/-- C2 witness: the general rescaling statement applied to the concrete chain. -/
theorem c2_selfloop_rescaling_witness :
    (eliminate 0 chainAB).P 0 1 = chainAB.P 0 1 * (1 - chainAB.P 0 0)⁻¹ :=
  (c2_selfloop_rescaling.2 2 chainAB 0 1 (by decide)
    (by norm_num [chainAB, Fin.ext_iff]) (by norm_num [chainAB, Fin.ext_iff])).1

open scoped ENNReal

/-- The embedding of a rational transition weight into `ℝ≥0∞` (negative weights,
which substochasticity rules out, are clamped to `0`). -/
noncomputable def ev (q : ℚ) : ℝ≥0∞ := ENNReal.ofReal (q : ℝ)

/-- The Bellman operator of an elimination state: one application adds the one-step
target probability and one expected step through the transition matrix. -/
noncomputable def Phi {n : ℕ} (M : ElimState n) (x : Fin n → ℝ≥0∞) : Fin n → ℝ≥0∞ :=
  fun p => ev (M.oneStep p) + ∑ t, ev (M.P p t) * x t

lemma Phi_mono {n : ℕ} (M : ElimState n) : Monotone (Phi M) := by
  intro x y hxy p
  refine add_le_add_left (Finset.sum_le_sum fun t _ => ?_) _
  exact mul_le_mul_left' (hxy t) _

/-- The Bellman operator bundled as an order homomorphism. -/
noncomputable def PhiHom {n : ℕ} (M : ElimState n) : (Fin n → ℝ≥0∞) →o (Fin n → ℝ≥0∞) :=
  ⟨Phi M, Phi_mono M⟩

/--
The probability of eventually reaching the designated absorbing targets, per
state: the least fixed point of the Bellman operator of the chain. This is the
standard characterisation of unbounded reachability probability in a countable
Markov chain.
-/
noncomputable def reachVal {n : ℕ} (M : ElimState n) : Fin n → ℝ≥0∞ :=
  OrderHom.lfp (PhiHom M)

lemma ev_add {a b : ℚ} (ha : 0 ≤ a) (hb : 0 ≤ b) : ev (a + b) = ev a + ev b := by
  simp only [ev, Rat.cast_add]
  exact ENNReal.ofReal_add (by exact_mod_cast ha) (by exact_mod_cast hb)

lemma ev_mul {a : ℚ} (b : ℚ) (ha : 0 ≤ a) : ev (a * b) = ev a * ev b := by
  simp only [ev, Rat.cast_mul]
  exact ENNReal.ofReal_mul (by exact_mod_cast ha)

lemma ev_le_ev {a b : ℚ} (h : a ≤ b) : ev a ≤ ev b :=
  ENNReal.ofReal_le_ofReal (by exact_mod_cast h)

lemma ev_zero : ev 0 = 0 := by simp [ev]

lemma ev_one : ev 1 = 1 := by simp [ev]

lemma ev_ne_top (q : ℚ) : ev q ≠ ∞ := ENNReal.ofReal_ne_top

lemma ev_lt_one {a : ℚ} (h : a < 1) : ev a < 1 := by
  rw [show (1 : ℝ≥0∞) = ev 1 from ev_one.symm]
  unfold ev
  rw [ENNReal.ofReal_lt_ofReal_iff (by norm_num)]
  exact_mod_cast h

lemma ev_sum {α : Type _} {s : Finset α} {f : α → ℚ} (hf : ∀ i ∈ s, 0 ≤ f i) :
    ev (∑ i ∈ s, f i) = ∑ i ∈ s, ev (f i) := by
  simp only [ev]
  push_cast
  exact ENNReal.ofReal_sum_of_nonneg fun i hi => by exact_mod_cast hf i hi

lemma ev_one_sub {L : ℚ} (hL : 0 ≤ L) : ev (1 - L) = 1 - ev L := by
  simp only [ev]
  push_cast
  rw [ENNReal.ofReal_sub _ (by exact_mod_cast hL), ENNReal.ofReal_one]

lemma ev_inv_one_sub_mul {L : ℚ} (hL : L < 1) :
    ev ((1 - L)⁻¹) * ev (1 - L) = 1 := by
  have hpos : (0 : ℝ) < 1 - (L : ℝ) := by
    have h0 : (0 : ℚ) < 1 - L := by linarith
    exact_mod_cast h0
  simp only [ev]
  push_cast
  rw [ENNReal.ofReal_inv_of_pos hpos]
  exact ENNReal.inv_mul_cancel (ENNReal.ofReal_pos.mpr hpos).ne' ENNReal.ofReal_ne_top

/-- Splitting a full sum at a distinguished state. -/
lemma sum_split {n : ℕ} (s : Fin n) (f : Fin n → ℝ≥0∞) :
    (∑ t, f t) = f s + ∑ t ∈ Finset.univ.erase s, f t :=
  (Finset.add_sum_erase _ f (Finset.mem_univ s)).symm

/-- The Bellman operator with the sum split at a distinguished state. -/
lemma phi_split {n : ℕ} (M : ElimState n) (x : Fin n → ℝ≥0∞) (p s : Fin n) :
    Phi M x p = ev (M.oneStep p) + (∑ t ∈ Finset.univ.erase s, ev (M.P p t) * x t)
      + ev (M.P p s) * x s := by
  unfold Phi
  rw [sum_split s fun t => ev (M.P p t) * x t]
  ring

/-- From a loop equation `xs = r + evL * xs` with `evL < 1` and finite `xs`,
the loop resolves to `xs = evc * r` for the geometric factor `evc = (1-evL)⁻¹`. -/
lemma solve_loop {r xs evL evc : ℝ≥0∞} (hx : xs = r + evL * xs) (hfin : xs ≠ ∞)
    (hLlt : evL < 1) (hc : evc * (1 - evL) = 1) : evc * r = xs := by
  have hLfin : evL ≠ ∞ := (hLlt.trans ENNReal.one_lt_top).ne
  have hmulfin : evL * xs ≠ ∞ := ENNReal.mul_ne_top hLfin hfin
  have hr : xs - evL * xs = r := by
    nth_rewrite 1 [hx]
    exact ENNReal.add_sub_cancel_right hmulfin
  have hsub : (1 - evL) * xs = xs - evL * xs := by
    rw [ENNReal.sub_mul fun _ _ => hfin, one_mul]
  calc evc * r = evc * ((1 - evL) * xs) := by rw [hsub, hr]
    _ = evc * (1 - evL) * xs := by rw [mul_assoc]
    _ = 1 * xs := by rw [hc]
    _ = xs := one_mul xs

/-- The geometric identity `1 + evL * evc = evc` for the factor `evc = (1-evL)⁻¹`. -/
lemma loop_geom {evL evc : ℝ≥0∞} (hLlt : evL < 1) (hcfin : evc ≠ ∞)
    (hc : evc * (1 - evL) = 1) : 1 + evL * evc = evc := by
  have hexp : evc * (1 - evL) = evc - evc * evL := by
    rw [ENNReal.mul_sub fun _ _ => hcfin, mul_one]
  have h1 : evc - evc * evL = 1 := by rw [← hexp]; exact hc
  have hle : evc * evL ≤ evc := by
    calc evc * evL ≤ evc * 1 := mul_le_mul_left' hLlt.le _
      _ = evc := mul_one _
  have hcancel := tsub_add_cancel_of_le hle
  rw [h1] at hcancel
  rw [mul_comm evL evc]
  exact hcancel

/-- The reachability value vector is bounded by one for substochastic chains. -/
lemma reachVal_le_one {n : ℕ} (M : ElimState n) (hst : Stochastic M) (p : Fin n) :
    reachVal M p ≤ 1 := by
  obtain ⟨hP, hb, hrow⟩ := hst
  have hpre : Phi M (fun _ => (1 : ℝ≥0∞)) ≤ fun _ => (1 : ℝ≥0∞) := by
    intro q
    show ev (M.oneStep q) + ∑ t, ev (M.P q t) * 1 ≤ 1
    have : (∑ t, ev (M.P q t) * 1) = ev (∑ t, M.P q t) := by
      rw [ev_sum fun t _ => hP q t]
      exact Finset.sum_congr rfl fun t _ => mul_one _
    rw [this, ← ev_add (hb q) (Finset.sum_nonneg fun t _ => hP q t), ← ev_one]
    refine ev_le_ev ?_
    calc M.oneStep q + ∑ t, M.P q t = (∑ t, M.P q t) + M.oneStep q := by ring
      _ ≤ 1 := hrow q
  exact OrderHom.lfp_le (PhiHom M) hpre p

/-- The diagonal entry of the eliminated matrix at the eliminated state is zero. -/
lemma eliminate_P_self {n : ℕ} (M : ElimState n) (s : Fin n) :
    (eliminate s M).P s s = 0 := by simp [eliminate]

/-- The Bellman operator of the eliminated chain, evaluated at the eliminated state. -/
lemma phi_eliminate_self {n : ℕ} (M : ElimState n) (s : Fin n)
    (hP : ∀ p t, 0 ≤ M.P p t) (hL : M.P s s < 1) (x : Fin n → ℝ≥0∞) :
    Phi (eliminate s M) x s
      = ev ((1 - M.P s s)⁻¹) *
          (ev (M.oneStep s) + ∑ t ∈ Finset.univ.erase s, ev (M.P s t) * x t) := by
  have hc : (0 : ℚ) ≤ (1 - M.P s s)⁻¹ := inv_nonneg.mpr (by linarith)
  have hPs : ∀ t ∈ Finset.univ.erase s, ev ((eliminate s M).P s t) * x t
      = ev ((1 - M.P s s)⁻¹) * (ev (M.P s t) * x t) := by
    intro t ht
    have hts : t ≠ s := Finset.ne_of_mem_erase ht
    simp only [eliminate, if_pos rfl, if_neg hts, ite_true, if_true]
    rw [ev_mul _ hc, mul_assoc]
  have hb' : (eliminate s M).oneStep s = (1 - M.P s s)⁻¹ * M.oneStep s := by
    simp [eliminate]
  unfold Phi
  rw [sum_split s fun t => ev ((eliminate s M).P s t) * x t, eliminate_P_self,
    ev_zero, zero_mul, zero_add, hb', ev_mul _ hc,
    Finset.sum_congr rfl hPs, ← Finset.mul_sum, ← mul_add]

/-- The Bellman operator of the eliminated chain, evaluated away from the
eliminated state. -/
lemma phi_eliminate_ne {n : ℕ} (M : ElimState n) (s : Fin n)
    (hP : ∀ p t, 0 ≤ M.P p t) (hb : ∀ p, 0 ≤ M.oneStep p) (hL : M.P s s < 1)
    (x : Fin n → ℝ≥0∞) (p : Fin n) (hp : p ≠ s) :
    Phi (eliminate s M) x p
      = ev (M.oneStep p) + (∑ t ∈ Finset.univ.erase s, ev (M.P p t) * x t)
        + ev (M.P p s) *
            (ev ((1 - M.P s s)⁻¹) *
              (ev (M.oneStep s) + ∑ t ∈ Finset.univ.erase s, ev (M.P s t) * x t)) := by
  have hc : (0 : ℚ) ≤ (1 - M.P s s)⁻¹ := inv_nonneg.mpr (by linarith)
  have hPs : ∀ t ∈ Finset.univ.erase s, ev ((eliminate s M).P p t) * x t
      = ev (M.P p t) * x t
        + ev (M.P p s) * (ev ((1 - M.P s s)⁻¹) * (ev (M.P s t) * x t)) := by
    intro t ht
    have hts : t ≠ s := Finset.ne_of_mem_erase ht
    simp only [eliminate, if_neg hp]
    rw [if_neg hts, ev_add (hP p t) (mul_nonneg (hP p s) (mul_nonneg hc (hP s t))),
      ev_mul _ (hP p s), ev_mul _ hc, add_mul]
    ring
  have hb' : (eliminate s M).oneStep p
      = M.oneStep p + M.P p s * ((1 - M.P s s)⁻¹ * M.oneStep s) := by
    simp [eliminate, hp]
  have hps' : (eliminate s M).P p s = 0 := by
    simp [eliminate, hp]
  unfold Phi
  rw [sum_split s fun t => ev ((eliminate s M).P p t) * x t, hps', ev_zero, zero_mul,
    zero_add, hb', ev_add (hb p) (mul_nonneg (hP p s) (mul_nonneg hc (hb s))),
    ev_mul _ (hP p s), ev_mul _ hc, Finset.sum_congr rfl hPs, Finset.sum_add_distrib,
    ← Finset.mul_sum, ← Finset.mul_sum]
  ring

/-- Any bounded fixed point of the original Bellman operator is a fixed point of
the eliminated chain's Bellman operator. -/
lemma fixed_of_eliminate {n : ℕ} (M : ElimState n) (s : Fin n) (hst : Stochastic M)
    (hL : M.P s s < 1) (x : Fin n → ℝ≥0∞) (hx : Phi M x = x) (hxb : x s ≠ ∞) :
    Phi (eliminate s M) x = x := by
  obtain ⟨hP, hb, hrow⟩ := hst
  set r : ℝ≥0∞ := ev (M.oneStep s) + ∑ t ∈ Finset.univ.erase s, ev (M.P s t) * x t with hr
  have hloop : x s = r + ev (M.P s s) * x s := by
    conv_lhs => rw [← congrFun hx s]
    rw [phi_split M x s s, hr]
  have hgeom : ev ((1 - M.P s s)⁻¹) * ev (1 - M.P s s) = 1 := ev_inv_one_sub_mul hL
  have hgeom' : ev ((1 - M.P s s)⁻¹) * (1 - ev (M.P s s)) = 1 := by
    rw [← ev_one_sub (hP s s)]; exact hgeom
  have hxs : ev ((1 - M.P s s)⁻¹) * r = x s :=
    solve_loop hloop hxb (ev_lt_one hL) hgeom'
  funext p
  by_cases hp : p = s
  · subst hp
    rw [phi_eliminate_self M p hP hL x, ← hr, hxs]
  · rw [phi_eliminate_ne M s hP hb hL x p hp, ← hr, hxs, ← phi_split M x p s,
      congrFun hx p]

/-- Any fixed point of the eliminated chain's Bellman operator is a fixed point of
the original chain's Bellman operator. -/
lemma fixed_of_original {n : ℕ} (M : ElimState n) (s : Fin n) (hst : Stochastic M)
    (hL : M.P s s < 1) (x : Fin n → ℝ≥0∞) (hx : Phi (eliminate s M) x = x) :
    Phi M x = x := by
  obtain ⟨hP, hb, hrow⟩ := hst
  set r : ℝ≥0∞ := ev (M.oneStep s) + ∑ t ∈ Finset.univ.erase s, ev (M.P s t) * x t with hr
  have hxs : x s = ev ((1 - M.P s s)⁻¹) * r := by
    conv_lhs => rw [← congrFun hx s]
    rw [phi_eliminate_self M s hP hL x, hr]
  have hgeom : ev ((1 - M.P s s)⁻¹) * ev (1 - M.P s s) = 1 := ev_inv_one_sub_mul hL
  have hgeom' : ev ((1 - M.P s s)⁻¹) * (1 - ev (M.P s s)) = 1 := by
    rw [← ev_one_sub (hP s s)]; exact hgeom
  have hone : 1 + ev (M.P s s) * ev ((1 - M.P s s)⁻¹) = ev ((1 - M.P s s)⁻¹) :=
    loop_geom (ev_lt_one hL) (ev_ne_top _) hgeom'
  funext p
  by_cases hp : p = s
  · subst hp
    rw [phi_split M x p p, hxs]
    calc ev (M.oneStep p) + (∑ t ∈ Finset.univ.erase p, ev (M.P p t) * x t)
          + ev (M.P p p) * (ev ((1 - M.P p p)⁻¹) * r)
        = (1 + ev (M.P p p) * ev ((1 - M.P p p)⁻¹)) * r := by rw [hr]; ring
      _ = ev ((1 - M.P p p)⁻¹) * r := by rw [hone]
  · rw [phi_split M x p s, hxs, ← phi_eliminate_ne M s hP hb hL x p hp,
      congrFun hx p]

/--
The central preservation lemma of the elimination engine: eliminating any state
whose self-loop weight is below one leaves the whole reachability value vector
of a substochastic chain unchanged.
-/
lemma reachVal_eliminate {n : ℕ} (M : ElimState n) (s : Fin n) (hst : Stochastic M)
    (hL : M.P s s < 1) : reachVal (eliminate s M) = reachVal M := by
  have hfix : Phi M (reachVal M) = reachVal M := OrderHom.map_lfp (PhiHom M)
  have hfix' : Phi (eliminate s M) (reachVal (eliminate s M)) = reachVal (eliminate s M) :=
    OrderHom.map_lfp (PhiHom (eliminate s M))
  have h1 : reachVal (eliminate s M) ≤ reachVal M := by
    refine OrderHom.lfp_le (PhiHom (eliminate s M)) ?_
    exact le_of_eq (fixed_of_eliminate M s hst hL (reachVal M) hfix
      (by
        have := reachVal_le_one M hst s
        exact (this.trans_lt ENNReal.one_lt_top).ne))
  have h2 : reachVal M ≤ reachVal (eliminate s M) := by
    refine OrderHom.lfp_le (PhiHom M) ?_
    exact le_of_eq (fixed_of_original M s hst hL (reachVal (eliminate s M)) hfix')
  exact le_antisymm h1 h2

/--
C1: for every finite substochastic chain (a DTMC restricted to its maybe states,
with a one-step target probability vector encoding the designated target set),
eliminating a non-initial state `s` with no self-loop leaves the probability of
eventually reaching the targets unchanged for every remaining predecessor `p`.
-/
theorem c1_elimination_invariance {n : ℕ} (M : ElimState n) (init s p : Fin n)
    (hst : Stochastic M) (hinit : s ≠ init) (hloop : M.P s s = 0)
    (hpred : M.P p s ≠ 0) (hp : p ≠ s) :
    reachVal (eliminate s M) p = reachVal M p := by
  have h := reachVal_eliminate M s hst (by rw [hloop]; norm_num)
  exact congrFun h p

/-- The 2-state chain used as the C1 witness: state 0 moves to the absorbing
state 1 with weight 1/2 and reaches the target directly with probability 1/2;
state 1 reaches the target with probability 1. -/
def chainC1 : ElimState 2 :=
  { P := fun p t => if p = 0 ∧ t = 1 then 1/2 else 0
    oneStep := fun p => if p = 0 then 1/2 else 1 }

lemma chainC1_stochastic : Stochastic chainC1 := by
  refine ⟨?_, ?_, ?_⟩
  · intro p t
    fin_cases p <;> fin_cases t <;> norm_num [chainC1, Fin.ext_iff]
  · intro p
    fin_cases p <;> norm_num [chainC1, Fin.ext_iff]
  · intro p
    fin_cases p <;> norm_num [chainC1, Fin.sum_univ_two, Fin.ext_iff]

/-- C1 witness: the invariance theorem applied to the concrete 2-state chain,
eliminating state 1 and reading off predecessor 0. -/
theorem c1_elimination_invariance_witness :
    reachVal (eliminate 1 chainC1) 0 = reachVal chainC1 0 :=
  c1_elimination_invariance chainC1 0 1 0 chainC1_stochastic (by decide)
    (by norm_num [chainC1, Fin.ext_iff]) (by norm_num [chainC1, Fin.ext_iff])
    (by decide)

/--
Modelled from the spec: running the eliminator over a list of states in order
(§4.5 step 6, flat prioritized state elimination).
-/
def runElim {n : ℕ} (order : List (Fin n)) (M : ElimState n) : ElimState n :=
  order.foldl (fun acc s => eliminate s acc) M

/--
Modelled from the spec: a run is valid when every eliminated state has self-loop
weight strictly below one at the moment it is eliminated (§4.2 step 2 requires
`L ≠ 1`; below one is the substochastic reading).
-/
def ValidRun {n : ℕ} : List (Fin n) → ElimState n → Prop
  | [], _ => True
  | s :: rest, M => M.P s s < 1 ∧ ValidRun rest (eliminate s M)

/-- Splitting a full rational sum at a distinguished state. -/
lemma qsum_split {n : ℕ} (s : Fin n) (f : Fin n → ℚ) :
    (∑ t, f t) = f s + ∑ t ∈ Finset.univ.erase s, f t :=
  (Finset.add_sum_erase _ f (Finset.mem_univ s)).symm

/-- Elimination preserves substochasticity. -/
lemma stochastic_eliminate {n : ℕ} (M : ElimState n) (s : Fin n) (hst : Stochastic M)
    (hL : M.P s s < 1) : Stochastic (eliminate s M) := by
  obtain ⟨hP, hb, hrow⟩ := hst
  have hcpos : (0 : ℚ) ≤ (1 - M.P s s)⁻¹ := inv_nonneg.mpr (by linarith)
  have hcone : (1 - M.P s s)⁻¹ * (1 - M.P s s) = 1 :=
    inv_mul_cancel₀ (ne_of_gt (by linarith : (0 : ℚ) < 1 - M.P s s))
  have hrow_s : (∑ t ∈ Finset.univ.erase s, M.P s t) + M.oneStep s ≤ 1 - M.P s s := by
    have h := hrow s
    rw [qsum_split s (M.P s)] at h
    linarith
  refine ⟨?_, ?_, ?_⟩
  · intro p t
    by_cases hp : p = s <;> by_cases ht : t = s <;> simp [eliminate, hp, ht]
    · exact mul_nonneg hcpos (hP s t)
    · have h1 := mul_nonneg (hP p s) (mul_nonneg hcpos (hP s t))
      have h2 := hP p t
      linarith
  · intro p
    by_cases hp : p = s <;> simp [eliminate, hp]
    · exact mul_nonneg hcpos (hb s)
    · have h1 := mul_nonneg (hP p s) (mul_nonneg hcpos (hb s))
      have h2 := hb p
      linarith
  · intro p
    by_cases hp : p = s
    · subst hp
      have hsum : (∑ t, (eliminate p M).P p t)
          = (1 - M.P p p)⁻¹ * ∑ t ∈ Finset.univ.erase p, M.P p t := by
        rw [qsum_split p ((eliminate p M).P p), eliminate_P_self, zero_add,
          Finset.mul_sum]
        refine Finset.sum_congr rfl fun t ht => ?_
        have hts : t ≠ p := Finset.ne_of_mem_erase ht
        simp [eliminate, hts]
      have hos : (eliminate p M).oneStep p = (1 - M.P p p)⁻¹ * M.oneStep p := by
        simp [eliminate]
      rw [hsum, hos, ← mul_add]
      calc (1 - M.P p p)⁻¹ * ((∑ t ∈ Finset.univ.erase p, M.P p t) + M.oneStep p)
          ≤ (1 - M.P p p)⁻¹ * (1 - M.P p p) := by
            exact mul_le_mul_of_nonneg_left hrow_s hcpos
        _ = 1 := hcone
    · have hsum : (∑ t, (eliminate s M).P p t)
          = (∑ t ∈ Finset.univ.erase s, M.P p t)
            + M.P p s * ((1 - M.P s s)⁻¹ * ∑ t ∈ Finset.univ.erase s, M.P s t) := by
        rw [qsum_split s ((eliminate s M).P p)]
        have hps : (eliminate s M).P p s = 0 := by simp [eliminate, hp]
        rw [hps, zero_add]
        have : ∀ t ∈ Finset.univ.erase s, (eliminate s M).P p t
            = M.P p t + M.P p s * ((1 - M.P s s)⁻¹ * M.P s t) := by
          intro t ht
          have hts : t ≠ s := Finset.ne_of_mem_erase ht
          simp [eliminate, hp, hts]
        rw [Finset.sum_congr rfl this, Finset.sum_add_distrib, ← Finset.mul_sum,
          ← Finset.mul_sum]
      have hos : (eliminate s M).oneStep p
          = M.oneStep p + M.P p s * ((1 - M.P s s)⁻¹ * M.oneStep s) := by
        simp [eliminate, hp]
      rw [hsum, hos]
      have hkey : M.P p s * ((1 - M.P s s)⁻¹ * ∑ t ∈ Finset.univ.erase s, M.P s t)
            + M.P p s * ((1 - M.P s s)⁻¹ * M.oneStep s) ≤ M.P p s := by
        rw [← mul_add, ← mul_add]
        calc M.P p s * ((1 - M.P s s)⁻¹
              * ((∑ t ∈ Finset.univ.erase s, M.P s t) + M.oneStep s))
            ≤ M.P p s * ((1 - M.P s s)⁻¹ * (1 - M.P s s)) := by
              refine mul_le_mul_of_nonneg_left ?_ (hP p s)
              exact mul_le_mul_of_nonneg_left hrow_s hcpos
          _ = M.P p s := by rw [hcone, mul_one]
      have hfull := hrow p
      rw [qsum_split s (M.P p)] at hfull
      linarith

/-- A valid run preserves substochasticity. -/
lemma stochastic_runElim {n : ℕ} (order : List (Fin n)) (M : ElimState n)
    (hst : Stochastic M) (hv : ValidRun order M) : Stochastic (runElim order M) := by
  induction order generalizing M with
  | nil => exact hst
  | cons s rest ih =>
    obtain ⟨hL, hv'⟩ := hv
    exact ih (eliminate s M) (stochastic_eliminate M s hst hL) hv'

/-- A valid run leaves the whole reachability value vector unchanged. -/
lemma reachVal_runElim {n : ℕ} (order : List (Fin n)) (M : ElimState n)
    (hst : Stochastic M) (hv : ValidRun order M) :
    reachVal (runElim order M) = reachVal M := by
  induction order generalizing M with
  | nil => rfl
  | cons s rest ih =>
    obtain ⟨hL, hv'⟩ := hv
    calc reachVal (runElim rest (eliminate s M))
        = reachVal (eliminate s M) := ih _ (stochastic_eliminate M s hst hL) hv'
      _ = reachVal M := reachVal_eliminate M s hst hL

/-- Eliminating any state keeps an all-zero matrix column all zero. -/
lemma eliminate_col_zero {n : ℕ} (M : ElimState n) (u t : Fin n)
    (h : ∀ p, M.P p t = 0) : ∀ p, (eliminate u M).P p t = 0 := by
  intro p
  by_cases hp : p = u <;> by_cases ht : t = u <;> simp [eliminate, hp, ht, h]

/-- After eliminating a state, its matrix column is all zero. -/
lemma eliminate_col_self {n : ℕ} (M : ElimState n) (s : Fin n) :
    ∀ p, (eliminate s M).P p s = 0 := by
  intro p
  by_cases hp : p = s <;> simp [eliminate, hp]

/-- Columns of already-eliminated states stay zero for the rest of a run. -/
lemma runElim_col_zero_preserve {n : ℕ} (order : List (Fin n)) (M : ElimState n)
    (t : Fin n) (h : ∀ p, M.P p t = 0) : ∀ p, (runElim order M).P p t = 0 := by
  induction order generalizing M with
  | nil => exact h
  | cons s rest ih => exact ih (eliminate s M) (eliminate_col_zero M s t h)

/-- After running the eliminator over an order, the column of every state in the
order is zero: no remaining transitions lead into eliminated states. -/
lemma runElim_col_zero {n : ℕ} (order : List (Fin n)) (M : ElimState n)
    (t : Fin n) (ht : t ∈ order) : ∀ p, (runElim order M).P p t = 0 := by
  induction order generalizing M with
  | nil => cases ht
  | cons s rest ih =>
    by_cases hmem : t ∈ rest
    · exact ih (eliminate s M) hmem
    · have hts : t = s := by
        rcases List.mem_cons.mp ht with h | h
        · exact h
        · exact absurd h hmem
      subst hts
      exact runElim_col_zero_preserve rest (eliminate t M) t (eliminate_col_self M t)

/--
Modelled from the spec (§4.5 steps 6-8): the final scalar of the elimination
engine: run the eliminator over the order, then resolve the remaining self-loop
of the initial state (rescaling by `1/(1-loop)`) and return its one-step value.
-/
def finalValue {n : ℕ} (init : Fin n) (order : List (Fin n)) (M : ElimState n) : ℚ :=
  (1 - (runElim order M).P init init)⁻¹ * (runElim order M).oneStep init

/-- When every other column of the initial state's row is zero, the resolved
final value is exactly the reachability probability of the initial state. -/
lemma reachVal_resolved {n : ℕ} (M' : ElimState n) (init : Fin n) (hst : Stochastic M')
    (hcol : ∀ t, t ≠ init → M'.P init t = 0) (hL : M'.P init init < 1) :
    ev ((1 - M'.P init init)⁻¹ * M'.oneStep init) = reachVal M' init := by
  obtain ⟨hP, hb, hrow⟩ := hst
  have hfix : Phi M' (reachVal M') = reachVal M' := OrderHom.map_lfp (PhiHom M')
  have hloop : reachVal M' init
      = ev (M'.oneStep init) + ev (M'.P init init) * reachVal M' init := by
    conv_lhs => rw [← congrFun hfix init]
    rw [phi_split M' (reachVal M') init init]
    have hz : (∑ t ∈ Finset.univ.erase init, ev (M'.P init t) * reachVal M' t) = 0 := by
      refine Finset.sum_eq_zero fun t ht => ?_
      rw [hcol t (Finset.ne_of_mem_erase ht), ev_zero, zero_mul]
    rw [hz, add_zero]
  have hgeom' : ev ((1 - M'.P init init)⁻¹) * (1 - ev (M'.P init init)) = 1 := by
    rw [← ev_one_sub (hP init init)]
    exact ev_inv_one_sub_mul hL
  have hfin : reachVal M' init ≠ ∞ :=
    ((reachVal_le_one M' ⟨hP, hb, hrow⟩ init).trans_lt ENNReal.one_lt_top).ne
  rw [ev_mul _ (inv_nonneg.mpr (by linarith : (0 : ℚ) ≤ 1 - M'.P init init))]
  exact solve_loop hloop hfin (ev_lt_one hL) hgeom'

/-- The embedding of rational weights into `ℝ≥0∞` is injective on nonnegatives. -/
lemma ev_inj {a b : ℚ} (ha : 0 ≤ a) (hb : 0 ≤ b) (h : ev a = ev b) : a = b := by
  have hr : (a : ℝ) = (b : ℝ) :=
    (ENNReal.ofReal_eq_ofReal_iff (by exact_mod_cast ha) (by exact_mod_cast hb)).mp h
  exact_mod_cast hr

/-- Any valid full elimination order produces exactly the initial state's
reachability probability as its final value. -/
lemma finalValue_eq_reachVal {n : ℕ} (M : ElimState n) (init : Fin n)
    (order : List (Fin n)) (hst : Stochastic M) (hv : ValidRun order M)
    (hmem : ∀ s, s ∈ order ↔ s ≠ init) (hf : (runElim order M).P init init < 1) :
    ev (finalValue init order M) = reachVal M init := by
  have hst' : Stochastic (runElim order M) := stochastic_runElim order M hst hv
  have hcol : ∀ t, t ≠ init → (runElim order M).P init t = 0 := fun t ht =>
    runElim_col_zero order M t ((hmem t).mpr ht) init
  calc ev (finalValue init order M) = reachVal (runElim order M) init :=
        reachVal_resolved (runElim order M) init hst' hcol hf
    _ = reachVal M init := congrFun (reachVal_runElim order M hst hv) init

/--
C4: for a fixed chain and fixed target set, the final computed initial-state
probability of the elimination engine is the same for every elimination order:
any two valid orders that eliminate exactly the non-initial states produce the
same final scalar (each order arising from the Forward, ForwardReversed,
Backward, BackwardReversed or Random policy is such an order).
-/
theorem c4_order_independence {n : ℕ} (M : ElimState n) (init : Fin n)
    (o₁ o₂ : List (Fin n)) (hst : Stochastic M)
    (hv₁ : ValidRun o₁ M) (hv₂ : ValidRun o₂ M)
    (hm₁ : ∀ s, s ∈ o₁ ↔ s ≠ init) (hm₂ : ∀ s, s ∈ o₂ ↔ s ≠ init)
    (hf₁ : (runElim o₁ M).P init init < 1)
    (hf₂ : (runElim o₂ M).P init init < 1) :
    finalValue init o₁ M = finalValue init o₂ M := by
  have hnn : ∀ (o : List (Fin n)), ValidRun o M → 0 ≤ finalValue init o M := by
    intro o hv
    obtain ⟨hP, hb, hrow⟩ := stochastic_runElim o M hst hv
    have h1 : (runElim o M).P init init ≤ ∑ t, (runElim o M).P init t :=
      Finset.single_le_sum (fun t _ => hP init t) (Finset.mem_univ init)
    have h2 := hrow init
    have h3 := hb init
    exact mul_nonneg (inv_nonneg.mpr (by linarith)) h3
  refine ev_inj (hnn o₁ hv₁) (hnn o₂ hv₂) ?_
  rw [finalValue_eq_reachVal M init o₁ hst hv₁ hm₁ hf₁,
    finalValue_eq_reachVal M init o₂ hst hv₂ hm₂ hf₂]

/-- The 3-state chain used as the C4 witness: the initial state 0 moves to the
absorbing states 1 and 2 and partly straight to the target; neither 1 nor 2 has
outgoing transitions. -/
def chainC4 : ElimState 3 :=
  { P := fun p t => if p = 0 ∧ t = 1 then 1/2 else if p = 0 ∧ t = 2 then 1/4 else 0
    oneStep := fun p => if p = 0 then 1/4 else if p = 1 then 1 else 0 }

lemma chainC4_stochastic : Stochastic chainC4 := by
  refine ⟨?_, ?_, ?_⟩
  · intro p t
    fin_cases p <;> fin_cases t <;> norm_num [chainC4, Fin.ext_iff]
  · intro p
    fin_cases p <;> norm_num [chainC4, Fin.ext_iff]
  · intro p
    fin_cases p <;> norm_num [chainC4, Fin.sum_univ_three, Fin.ext_iff]

lemma chainC4_valid_fwd : ValidRun [1, 2] chainC4 :=
  ⟨by norm_num [chainC4, Fin.ext_iff],
    by norm_num [eliminate, chainC4, Fin.ext_iff], trivial⟩

lemma chainC4_valid_bwd : ValidRun [2, 1] chainC4 :=
  ⟨by norm_num [chainC4, Fin.ext_iff],
    by norm_num [eliminate, chainC4, Fin.ext_iff], trivial⟩

/-- C4 witness: the forward order `[1, 2]` and the backward order `[2, 1]`
produce the same final scalar on the concrete chain. -/
theorem c4_order_independence_witness :
    finalValue 0 [1, 2] chainC4 = finalValue 0 [2, 1] chainC4 :=
  c4_order_independence chainC4 0 [1, 2] [2, 1] chainC4_stochastic
    chainC4_valid_fwd chainC4_valid_bwd (by decide) (by decide)
    (by norm_num [runElim, eliminate, chainC4, Fin.ext_iff])
    (by norm_num [runElim, eliminate, chainC4, Fin.ext_iff])

/-- One half as an explicit reduced fraction (kernel-transparent, so that graph
analyses over concrete chains evaluate by `decide`). -/
def qHalf : ℚ := ⟨1, 2, by decide, by decide⟩

lemma qHalf_eq : qHalf = 1/2 := by
  have h := Rat.num_div_den qHalf
  norm_num [show qHalf.num = 1 from rfl, show qHalf.den = 2 from rfl] at h
  exact h.symm

/--
Modelled from the spec (§4.5, §6): an until query over a finite DTMC: the full
transition matrix, the φ and ψ state sets, and the single initial state.
-/
structure UntilQuery (n : ℕ) where
  Q : Fin n → Fin n → ℚ
  phi : Finset (Fin n)
  psi : Finset (Fin n)
  init : Fin n

/-- Row-stochasticity of a full DTMC matrix: nonnegative entries, every row sums
to exactly one. -/
def RowStochastic {n : ℕ} (Q : Fin n → Fin n → ℚ) : Prop :=
  (∀ p t, 0 ≤ Q p t) ∧ ∀ p, (∑ t, Q p t) = 1

/-- One backward expansion step of the graph analysis: add every `allowed` state
with a transition into the current set (only edge existence matters). -/
def preStep {n : ℕ} (Q : Fin n → Fin n → ℚ) (allowed : Finset (Fin n))
    (S : Finset (Fin n)) : Finset (Fin n) :=
  S ∪ allowed.filter fun s => ∃ t ∈ S, Q s t ≠ 0

/--
Modelled from the spec (§6, `performProb01`): the backward reachability closure
through `allowed` states, reaching `base`; `n` expansion steps saturate over a
state space of size `n`.
-/
def preStar {n : ℕ} (Q : Fin n → Fin n → ℚ) (allowed base : Finset (Fin n)) :
    Finset (Fin n) :=
  (preStep Q allowed)^[n] base

/-- Modelled from the spec: the probability-0 set of an until query: the states
with no φ-path to ψ. -/
def prob0 {n : ℕ} (q : UntilQuery n) : Finset (Fin n) :=
  Finset.univ \ preStar q.Q q.phi q.psi

/-- Modelled from the spec: the probability-1 set of an until query: the
complement of the states that can reach the probability-0 set along φ∖ψ
states. -/
def prob1 {n : ℕ} (q : UntilQuery n) : Finset (Fin n) :=
  Finset.univ \ preStar q.Q (q.phi \ q.psi) (prob0 q)

/-- One forward expansion step: add every state with a transition from the
current set. -/
def postStep {n : ℕ} (Q : Fin n → Fin n → ℚ) (S : Finset (Fin n)) :
    Finset (Fin n) :=
  S ∪ Finset.univ.filter fun t => ∃ s ∈ S, Q s t ≠ 0

/-- Modelled from the spec (§6 `getReachableStates`): the forward reachability
closure from the initial state. -/
def reachSet {n : ℕ} (Q : Fin n → Fin n → ℚ) (init : Fin n) : Finset (Fin n) :=
  (postStep Q)^[n] {init}

/-- Modelled from the spec (§3, §4.5 step 3): the maybe states: the reachable
states that are neither probability-0 nor probability-1. -/
def maybeSet {n : ℕ} (q : UntilQuery n) : Finset (Fin n) :=
  (Finset.univ \ (prob0 q ∪ prob1 q)) ∩ reachSet q.Q q.init

/-- The spec's conservation property (§8): for every prepared maybe state, the
retained outgoing mass plus the one-step-to-target probability is one. -/
def ConservationHolds {n : ℕ} (q : UntilQuery n) : Prop :=
  ∀ p ∈ maybeSet q, (∑ t ∈ maybeSet q, q.Q p t) + (∑ t ∈ prob1 q, q.Q p t) = 1

/-- An inflationary step keeps each iterate inside the next one. -/
lemma subset_iterate {α : Type _} (f : Finset α → Finset α) (hf : ∀ S, S ⊆ f S)
    (S0 : Finset α) (k : ℕ) : S0 ⊆ f^[k] S0 := by
  induction k with
  | zero => exact subset_rfl
  | succ k ih =>
    rw [Function.iterate_succ_apply']
    exact ih.trans (hf _)

/-- Iterating an inflationary step `n` times over a state space of size `n`
reaches a fixed point. -/
lemma iterate_saturates {n : ℕ} (f : Finset (Fin n) → Finset (Fin n))
    (hf : ∀ S, S ⊆ f S) (S0 : Finset (Fin n)) :
    f (f^[n] S0) = f^[n] S0 := by
  by_cases hex : ∃ k, k ≤ n ∧ f (f^[k] S0) = f^[k] S0
  · obtain ⟨k, hk, heq⟩ := hex
    have hstat : ∀ m, f^[m] (f^[k] S0) = f^[k] S0 := fun m =>
      Function.iterate_fixed heq m
    have hn : f^[n] S0 = f^[k] S0 := by
      have : f^[n - k + k] S0 = f^[n - k] (f^[k] S0) := Function.iterate_add_apply f _ _ _
      rw [Nat.sub_add_cancel hk] at this
      rw [this, hstat]
    rw [hn, heq, ← hn]
  · push_neg at hex
    have hstrict : ∀ k, k ≤ n → f^[k] S0 ⊂ f^[k + 1] S0 := by
      intro k hk
      rw [Function.iterate_succ_apply']
      exact HasSubset.Subset.ssubset_of_ne (hf _) (fun h => hex k hk h.symm)
    have hcard : ∀ k, k ≤ n + 1 → k ≤ (f^[k] S0).card := by
      intro k hk
      induction k with
      | zero => exact Nat.zero_le _
      | succ k ih =>
        have h1 := ih (Nat.le_of_succ_le hk)
        have h2 := Finset.card_lt_card (hstrict k (Nat.lt_succ_iff.mp hk))
        omega
    have h1 := hcard (n + 1) le_rfl
    have h2 : (f^[n + 1] S0).card ≤ n := by
      have := Finset.card_le_card (Finset.subset_univ (f^[n + 1] S0))
      simpa using this
    omega

/-- Base inclusion into the backward closure. -/
lemma base_subset_preStar {n : ℕ} (Q : Fin n → Fin n → ℚ)
    (allowed base : Finset (Fin n)) : base ⊆ preStar Q allowed base :=
  subset_iterate _ (fun _ => Finset.subset_union_left) base n

/-- The forward reachability closure is closed under outgoing transitions. -/
lemma reachSet_closed {n : ℕ} (Q : Fin n → Fin n → ℚ) (init : Fin n) {p t : Fin n}
    (hp : p ∈ reachSet Q init) (ht : Q p t ≠ 0) : t ∈ reachSet Q init := by
  have hsat := iterate_saturates (postStep Q) (fun _ => Finset.subset_union_left)
    ({init} : Finset (Fin n))
  have hmem : t ∈ postStep Q (reachSet Q init) := by
    refine Finset.mem_union_right _ ?_
    rw [Finset.mem_filter]
    exact ⟨Finset.mem_univ t, ⟨p, hp, ht⟩⟩
  rw [reachSet] at hmem ⊢
  rwa [hsat] at hmem

/-- A probability-0 state is not a probability-1 state. -/
lemma not_mem_prob1_of_mem_prob0 {n : ℕ} (q : UntilQuery n) {s : Fin n}
    (h : s ∈ prob0 q) : s ∉ prob1 q := by
  intro h1
  rw [prob1, Finset.mem_sdiff] at h1
  exact h1.2 (base_subset_preStar q.Q (q.phi \ q.psi) (prob0 q) h)

/-- The model of the until query used as the C3 counterexample: the initial state
moves with weight one half each to an absorbing target state and an absorbing
trap state. -/
def queryC3 : UntilQuery 3 :=
  { Q := fun p t =>
      if p = 0 ∧ t = 1 then qHalf
      else if p = 0 ∧ t = 2 then qHalf
      else if p = 1 ∧ t = 1 then 1
      else if p = 2 ∧ t = 2 then 1
      else 0
    phi := Finset.univ
    psi := {1}
    init := 0 }

/--
C3, counterexample: conservation fails before elimination begins on the
counterexample query: its single maybe state keeps no outgoing mass and has
one-step-to-target probability one half, because the other half of its mass
enters the probability-0 trap, so the claimed sum is 1/2, not 1. The full
matrix is row-stochastic.
-/
theorem c3_conservation_counterexample :
    RowStochastic queryC3.Q ∧ ¬ ConservationHolds queryC3 := by
  constructor
  · constructor
    · intro p t
      fin_cases p <;> fin_cases t <;>
        norm_num [queryC3, Fin.ext_iff, qHalf_eq]
    · intro p
      fin_cases p <;>
        norm_num [queryC3, Fin.sum_univ_three, Fin.ext_iff, qHalf_eq] <;> decide
  · intro h
    have hmem : (0 : Fin 3) ∈ maybeSet queryC3 := by decide
    have h0 := h 0 hmem
    have hmaybe : maybeSet queryC3 = {0} := by decide
    have hp1 : prob1 queryC3 = {1} := by decide
    rw [hmaybe, hp1, Finset.sum_singleton, Finset.sum_singleton] at h0
    rw [show queryC3.Q 0 0 = 0 by norm_num [queryC3, Fin.ext_iff],
      show queryC3.Q 0 1 = qHalf by norm_num [queryC3, Fin.ext_iff], qHalf_eq] at h0
    norm_num at h0

/--
Modelled from the source (`MarkovAutomaton.cpp`, constructor +
`turnRatesToProbabilities`): the inputs of a Markov automaton built from a rate
matrix: for every state its row group (one row per choice), the Markovian flag,
and the exit rate vector (empty when the rates are to be derived).
-/
structure MAInput (n : ℕ) where
  rows : Fin n → List (Fin n → ℚ)
  markovian : Fin n → Bool
  exitRates : List ℚ

/-- The sum of one matrix row (`SparseMatrix::getRowSum`). -/
def rowSum {n : ℕ} (r : Fin n → ℚ) : ℚ := ∑ t, r t

/-- The probabilistic choices of a state: for a Markovian state all rows of its
group except the first (which holds the rates), for a probabilistic state all
rows of its group. -/
def probabilisticRows {n : ℕ} (ma : MAInput n) (s : Fin n) : List (Fin n → ℚ) :=
  if ma.markovian s then (ma.rows s).tail else ma.rows s

/--
`MarkovAutomaton::turnRatesToProbabilities`, reduced to its acceptance
behaviour: the construction succeeds iff none of its `STORM_LOG_THROW`
(`InvalidArgumentException`) checks fires: the exit rate vector has the right
size or is empty; for each Markovian state the given exit rate (if given)
matches the rate row's sum; and every probabilistic choice row sums to exactly
one (the `ConstantsComparator` is exact for exact value types).
-/
def turnRatesAccepts {n : ℕ} (ma : MAInput n) : Bool :=
  (decide (ma.exitRates.length = n) || decide (ma.exitRates = [])) &&
  (List.finRange n).all fun s =>
    (if ma.markovian s then
      (if ma.exitRates.length = n then
        decide (ma.exitRates.getD s.val 0 = rowSum ((ma.rows s).headI)) else true)
    else
      (if ma.exitRates.length = n then
        decide (ma.exitRates.getD s.val 0 = 0) else true)) &&
    (probabilisticRows ma s).all fun r => decide (rowSum r = 1)

/--
C3, amended: the conservation identity holds once the mass entering
probability-0 states is accounted for: for every row-stochastic until query and
every maybe state of the prepared subsystem, the retained outgoing mass plus
the one-step probability into probability-1 states plus the one-step
probability into probability-0 states is exactly one; and the construction of a
probabilistic model rejects (with an `InvalidArgumentException`) any transition
matrix whose probabilistic rows do not each sum to one.
-/
theorem c3_conservation :
    (∀ (n : ℕ) (q : UntilQuery n), RowStochastic q.Q →
      ∀ p ∈ maybeSet q,
        (∑ t ∈ maybeSet q, q.Q p t) + (∑ t ∈ prob1 q, q.Q p t)
          + (∑ t ∈ prob0 q, q.Q p t) = 1) ∧
    (∀ (n : ℕ) (ma : MAInput n), turnRatesAccepts ma = true →
      ∀ s : Fin n, ∀ r ∈ probabilisticRows ma s, rowSum r = 1) := by
  constructor
  · intro n q hrs p hp
    obtain ⟨hQ, hrow⟩ := hrs
    have hpd : Disjoint (prob0 q) (prob1 q) := by
      rw [Finset.disjoint_left]
      exact fun s hs => not_mem_prob1_of_mem_prob0 q hs
    have hmd0 : Disjoint (maybeSet q) (prob0 q) := by
      rw [Finset.disjoint_left]
      intro s hs hs0
      rw [maybeSet, Finset.mem_inter, Finset.mem_sdiff] at hs
      exact hs.1.2 (Finset.mem_union_left _ hs0)
    have hmd1 : Disjoint (maybeSet q) (prob1 q) := by
      rw [Finset.disjoint_left]
      intro s hs hs1
      rw [maybeSet, Finset.mem_inter, Finset.mem_sdiff] at hs
      exact hs.1.2 (Finset.mem_union_right _ hs1)
    set A : Finset (Fin n) := maybeSet q ∪ (prob1 q ∪ prob0 q) with hA
    have hsplit : (∑ t ∈ A, q.Q p t)
        = (∑ t ∈ maybeSet q, q.Q p t) + ((∑ t ∈ prob1 q, q.Q p t)
            + (∑ t ∈ prob0 q, q.Q p t)) := by
      rw [hA, Finset.sum_union (by
        rw [Finset.disjoint_union_right]
        exact ⟨hmd1, hmd0⟩), Finset.sum_union hpd.symm]
    have hrest : ∀ t ∈ (Finset.univ : Finset (Fin n)) \ A, q.Q p t = 0 := by
      intro t ht
      rw [Finset.mem_sdiff] at ht
      by_contra hne
      apply ht.2
      rw [hA]
      have hpreach : p ∈ reachSet q.Q q.init := by
        rw [maybeSet, Finset.mem_inter] at hp
        exact hp.2
      have htreach : t ∈ reachSet q.Q q.init := reachSet_closed q.Q q.init hpreach hne
      by_cases h0 : t ∈ prob0 q
      · exact Finset.mem_union_right _ (Finset.mem_union_right _ h0)
      · by_cases h1 : t ∈ prob1 q
        · exact Finset.mem_union_right _ (Finset.mem_union_left _ h1)
        · refine Finset.mem_union_left _ ?_
          rw [maybeSet, Finset.mem_inter, Finset.mem_sdiff]
          refine ⟨⟨Finset.mem_univ t, ?_⟩, htreach⟩
          rw [Finset.mem_union]
          rintro (h | h)
          · exact h0 h
          · exact h1 h
    have hfull : (∑ t ∈ A, q.Q p t) = ∑ t, q.Q p t := by
      rw [← Finset.sum_sdiff (Finset.subset_univ A),
        Finset.sum_eq_zero hrest, zero_add]
    rw [← add_assoc] at hsplit
    rw [← hsplit, hfull, hrow p]
  · intro n ma hacc s r hr
    rw [turnRatesAccepts, Bool.and_eq_true, List.all_eq_true] at hacc
    have hs := hacc.2 s (List.mem_finRange s)
    rw [Bool.and_eq_true, List.all_eq_true] at hs
    have := hs.2 r hr
    exact of_decide_eq_true this

/-- C3 witness: the amended conservation identity evaluated on the
counterexample chain, and the rejection statement on a one-state rate-matrix
input whose probabilistic row sums to one. -/
theorem c3_conservation_witness :
    (∑ t ∈ maybeSet queryC3, queryC3.Q 0 t) + (∑ t ∈ prob1 queryC3, queryC3.Q 0 t)
      + (∑ t ∈ prob0 queryC3, queryC3.Q 0 t) = 1 :=
  c3_conservation.1 3 queryC3
    ⟨fun p t => by fin_cases p <;> fin_cases t <;>
        norm_num [queryC3, Fin.ext_iff, qHalf_eq],
      fun p => by fin_cases p <;>
        norm_num [queryC3, Fin.sum_univ_three, Fin.ext_iff, qHalf_eq] <;> decide⟩
    0 (by decide)

/--
Modelled from the spec (§4.5): the until-probability procedure. It computes the
probability-0/1 sets by backward graph analysis; if the initial state already
resolves trivially it returns immediately (short-circuit); otherwise it
prepares the reachable maybe-state subsystem with its one-step probabilities,
eliminates every maybe state except the initial one in priority order, resolves
the initial state's remaining self-loop, and returns the scalar. The second
component counts the state elimination steps performed.
-/
def untilProbability {n : ℕ} (q : UntilQuery n) : ℚ × ℕ :=
  if q.init ∈ prob1 q then (1, 0)
  else if q.init ∈ prob0 q then (0, 0)
  else
    let maybe := maybeSet q
    let sub : ElimState n :=
      { P := fun p t => if p ∈ maybe ∧ t ∈ maybe then q.Q p t else 0
        oneStep := fun p => if p ∈ maybe then ∑ t ∈ prob1 q, q.Q p t else 0 }
    let order := (maybe.erase q.init).sort (· ≤ ·)
    (finalValue q.init order sub, order.length)

/--
C6: for every DTMC whose single initial state lies in the probability-1
(respectively probability-0) set computed by the backward graph analysis, the
until-probability procedure returns exactly 1 (respectively 0) and performs
zero state-elimination steps.
-/
theorem c6_trivial_shortcircuit {n : ℕ} (q : UntilQuery n) :
    (q.init ∈ prob1 q → untilProbability q = (1, 0)) ∧
    (q.init ∈ prob0 q → untilProbability q = (0, 0)) := by
  constructor
  · intro h
    rw [untilProbability, if_pos h]
  · intro h
    rw [untilProbability, if_neg (fun h1 => not_mem_prob1_of_mem_prob0 q h h1),
      if_pos h]

/-- The 2-state chain of the C6 witness: the initial state moves to the ψ-state
with probability one, so it lies in the probability-1 set. -/
def queryC6 : UntilQuery 2 :=
  { Q := fun p t => if t = 1 then 1 else 0
    phi := Finset.univ
    psi := {1}
    init := 0 }

/-- The C6 witness chain with an empty target set: the initial state lies in the
probability-0 set. -/
def queryC6zero : UntilQuery 2 :=
  { Q := fun p t => if t = 1 then 1 else 0
    phi := Finset.univ
    psi := ∅
    init := 0 }

/-- C6 witness: both short-circuits evaluated on concrete chains. -/
theorem c6_trivial_shortcircuit_witness :
    untilProbability queryC6 = (1, 0) ∧ untilProbability queryC6zero = (0, 0) :=
  ⟨(c6_trivial_shortcircuit queryC6).1 (by decide),
    (c6_trivial_shortcircuit queryC6zero).2 (by decide)⟩

/-- One forward expansion step inside a state subset, on a pure edge relation. -/
def stepWithin {n : ℕ} (E : Fin n → Fin n → Bool) (sub : Finset (Fin n))
    (S : Finset (Fin n)) : Finset (Fin n) :=
  S ∪ sub.filter fun t => ∃ s ∈ S, E s t = true

/-- The states reachable from `s` inside the subset (including `s` itself). -/
def reachWithin {n : ℕ} (E : Fin n → Fin n → Bool) (sub : Finset (Fin n))
    (s : Fin n) : Finset (Fin n) :=
  (stepWithin E sub)^[n] {s}

/-- The strongly connected block of `s` inside the subset: the subset states
mutually reachable with `s` within the subset. -/
def sccBlock {n : ℕ} (E : Fin n → Fin n → Bool) (sub : Finset (Fin n))
    (s : Fin n) : Finset (Fin n) :=
  sub.filter fun t => t ∈ reachWithin E sub s ∧ s ∈ reachWithin E sub t

/-- Modelled from the spec (§3, §4.4): the SCC decomposition of a state subset:
its partition into blocks of mutual reachability. -/
def sccDecomposition {n : ℕ} (E : Fin n → Fin n → Bool) (sub : Finset (Fin n)) :
    Finset (Finset (Fin n)) :=
  sub.image fun s => sccBlock E sub s

/-- Modelled from the spec (§4.4): the entry states of a block: its states with a
predecessor outside the block. -/
def entryStates {n : ℕ} (E : Fin n → Fin n → Bool) (block : Finset (Fin n)) :
    Finset (Fin n) :=
  block.filter fun t => ∃ p, p ∉ block ∧ E p t = true

/--
Modelled from the spec (§4.4): the maximal recursion depth reached by the
hybrid SCC-recursive driver on a state subset. When the subset is no larger
than the threshold the driver performs a flat elimination pass (no recursion);
otherwise it decomposes the subset minus its entry states into SCC blocks,
eliminates the trivial (single-state) blocks directly, and recurses into each
non-trivial block with that block's own entry states, at depth one more. The
fuel argument bounds the recursion; `hybridMaxDepth` supplies enough fuel for
any run (every recursion strictly descends into a proper subset).
-/
def hybridDepthAux {n : ℕ} (E : Fin n → Fin n → Bool) (threshold : ℕ) :
    ℕ → Finset (Fin n) → Finset (Fin n) → ℕ
  | 0, _, _ => 0
  | fuel + 1, scc, entries =>
    if scc.card ≤ threshold then 0
    else
      ((sccDecomposition E (scc \ entries)).filter fun B => 1 < B.card).sup
        fun B => 1 + hybridDepthAux E threshold fuel B (entryStates E B)

/-- The recursion depth of the driver, with saturating fuel. -/
def hybridMaxDepth {n : ℕ} (E : Fin n → Fin n → Bool) (threshold : ℕ)
    (scc entries : Finset (Fin n)) : ℕ :=
  hybridDepthAux E threshold (scc.card + 1) scc entries

/-- The 2-state cycle used for the C5 counterexample. -/
def edgesC5 : Fin 2 → Fin 2 → Bool := fun p t => p ≠ t

/--
C5, counterexample: an SCC of `maximalSccSize + 1 = 2` states (a 2-cycle, with
threshold 1 and one entry state) on which the hybrid driver never recurses:
removing the entry state leaves a single trivial block, which is eliminated in
place, so the recursion depth stays 0 even though the subset exceeds the
threshold.
-/
theorem c5_recursion_counterexample :
    (Finset.univ : Finset (Fin 2)).card = 1 + 1 ∧
    ¬ (1 ≤ hybridMaxDepth edgesC5 1 (Finset.univ : Finset (Fin 2)) {0}) := by
  decide

/--
C5, amended: if the subset's size is at most `maximalSccSize` the driver
performs a flat elimination pass and does not recurse (depth 0, covering the
boundary size exactly `maximalSccSize`); if the size is `maximalSccSize + 1`
the driver takes the decomposition branch, and it recurses at least once if and
only if the finer decomposition of the subset minus its entry states contains a
non-trivial (multi-state) block.
-/
theorem c5_scc_threshold {n : ℕ} (E : Fin n → Fin n → Bool) (threshold : ℕ)
    (scc entries : Finset (Fin n)) :
    (scc.card = threshold → hybridMaxDepth E threshold scc entries = 0) ∧
    (scc.card = threshold + 1 →
      (1 ≤ hybridMaxDepth E threshold scc entries ↔
        ∃ B ∈ sccDecomposition E (scc \ entries), 1 < B.card)) := by
  constructor
  · intro h
    rw [hybridMaxDepth, hybridDepthAux, if_pos (le_of_eq h)]
  · intro h
    rw [hybridMaxDepth, hybridDepthAux, if_neg (by omega)]
    constructor
    · intro hsup
      by_contra hnone
      push_neg at hnone
      have hempty : (sccDecomposition E (scc \ entries)).filter (fun B => 1 < B.card)
          = ∅ := by
        rw [Finset.filter_eq_empty_iff]
        intro B hB
        exact not_lt.mpr (hnone B hB)
      rw [hempty, Finset.sup_empty] at hsup
      exact absurd hsup (by simp)
    · rintro ⟨B, hB, hcard⟩
      have hmem : B ∈ (sccDecomposition E (scc \ entries)).filter fun B => 1 < B.card :=
        Finset.mem_filter.mpr ⟨hB, hcard⟩
      have hle : (fun C => 1 + hybridDepthAux E threshold (scc.card) C (entryStates E C)) B
          ≤ ((sccDecomposition E (scc \ entries)).filter fun C => 1 < C.card).sup
            (fun C => 1 + hybridDepthAux E threshold (scc.card) C (entryStates E C)) :=
        @Finset.le_sup ℕ (Finset (Fin n)) _ _
          ((sccDecomposition E (scc \ entries)).filter fun C => 1 < C.card)
          (fun C => 1 + hybridDepthAux E threshold (scc.card) C (entryStates E C))
          B hmem
      calc (1 : ℕ) ≤ 1 + hybridDepthAux E threshold (scc.card) B (entryStates E B) :=
            Nat.le_add_right 1 _
        _ ≤ _ := hle

/-- C5 witness: the flat-pass statement applied at the exact threshold size on
the concrete 2-cycle. -/
theorem c5_scc_threshold_witness :
    hybridMaxDepth edgesC5 2 (Finset.univ : Finset (Fin 2)) {0} = 0 :=
  (c5_scc_threshold edgesC5 2 Finset.univ {0}).1 (by decide)

/--
Modelled from the spec: a rational weight as a numerator/denominator pair of
integers; the `simplify` operation of the exact value types (§4.2, "algebraic
simplification (factor cancellation)") divides both components by their greatest
common divisor. The carl-backed implementation is not part of the repository
snapshot. A weight with gcd zero (the zero weight `0/0`) is left untouched.
-/
def simplifyWeight (w : ℤ × ℤ) : ℤ × ℤ :=
  let g : ℕ := Int.gcd w.1 w.2
  if g = 0 then w else (w.1 / (g : ℤ), w.2 / (g : ℤ))

/--
C7: the simplify operation is idempotent: simplifying an already simplified
rational weight changes nothing, because after cancellation the two components
are coprime.
-/
theorem c7_simplify_idempotent (w : ℤ × ℤ) :
    simplifyWeight (simplifyWeight w) = simplifyWeight w := by
  rcases w with ⟨a, b⟩
  by_cases h : Int.gcd a b = 0
  · simp [simplifyWeight, h]
  · have hpos : 0 < Int.gcd a b := Nat.pos_of_ne_zero h
    have hco : Int.gcd (a / (Int.gcd a b : ℤ)) (b / (Int.gcd a b : ℤ)) = 1 := by
      exact_mod_cast Int.gcd_div_gcd_div_gcd hpos
    simp [simplifyWeight, h, hco]

/-!
The bit vector storage (`src/storage/BitVector.cpp`). Buckets are 64-bit words
stored as naturals below `2^64`; bit `i` of the vector lives in bucket `i / 64`
at word bit position `63 - i % 64` (most significant bit first), exactly as in
the source (`set` uses the mask `1ull << (63 - (index & mod64mask))`). Shift
counts are taken modulo 64, matching the shift semantics of the target
machines, on which the source relies in the `bitCount % 64 == 0` corner of
`full()` and `resize()` (`1ull << 64`).
-/

/-- The all-ones 64-bit bucket (`-1ull`). -/
def allOnes : ℕ := 2 ^ 64 - 1

/-- The 64-bit one-complement of a bucket (`~v`). -/
def compl64 (v : ℕ) : ℕ := v ^^^ allOnes

/-- `1ull << k`, with the machine's modulo-64 shift count. -/
def shlOne (k : ℕ) : ℕ := 1 <<< (k % 64)

/-- `BitVector`: the number of logical bits followed by the bucket storage. -/
structure BitVector where
  bitCount : ℕ
  bucketVector : List ℕ

/-- The bucket count allocated for a bit count (`BitVector::BitVector`):
`length >> 6`, plus one when `length & mod64mask` is nonzero. -/
def requiredBuckets (length : ℕ) : ℕ :=
  length / 64 + (if length % 64 ≠ 0 then 1 else 0)

/-- Update the last bucket (`bucketVector.back()`), a no-op on empty storage. -/
def modifyLast (f : ℕ → ℕ) (l : List ℕ) : List ℕ :=
  l.set (l.length - 1) (f (l.getD (l.length - 1) 0))

/-- `BitVector::truncateLastBucket`: when the bit count is not a bucket
multiple, clear the low `64 - bitCount % 64` bits of the last bucket. -/
def truncateLastBucket (bv : BitVector) : BitVector :=
  if bv.bitCount % 64 ≠ 0 then
    ⟨bv.bitCount,
      modifyLast (fun v => v &&& compl64 (shlOne (64 - bv.bitCount % 64) - 1))
        bv.bucketVector⟩
  else bv

/-- `BitVector::BitVector(length, init)`: all-ones storage then truncation when
initialised to true, all-zero storage otherwise. -/
def mkBitVector (length : ℕ) (init : Bool) : BitVector :=
  if init then
    truncateLastBucket ⟨length, List.replicate (requiredBuckets length) allOnes⟩
  else ⟨length, List.replicate (requiredBuckets length) 0⟩

/-- `BitVector::operator[]`/`get`: read bit `index`. -/
def bvGet (bv : BitVector) (index : ℕ) : Bool :=
  Nat.testBit (bv.bucketVector.getD (index / 64) 0) (63 - index % 64)

/-- `BitVector::set(index, value)`: or the single-bit mask into the bucket, or
clear it with the complemented mask. -/
def bvSet (bv : BitVector) (index : ℕ) (value : Bool) : BitVector :=
  ⟨bv.bitCount,
    if value then
      bv.bucketVector.set (index / 64)
        (bv.bucketVector.getD (index / 64) 0 ||| 1 <<< (63 - index % 64))
    else
      bv.bucketVector.set (index / 64)
        (bv.bucketVector.getD (index / 64) 0 &&& compl64 (1 <<< (63 - index % 64)))⟩

/-- The missing-bit fill of `resize` with `init`: or the mask of the positions
beyond `bitCount` into the last bucket (`bucketVector.back() |= ...`); the
identity without `init`. -/
def fillMissing (bv : BitVector) (init : Bool) : List ℕ :=
  if init then
    modifyLast (fun v => v ||| (shlOne (64 - bv.bitCount % 64) - 1)) bv.bucketVector
  else bv.bucketVector

/-- `BitVector::resize(newLength, init)`, including the in-place missing-bit
fill of the former last bucket on growth with `init`. -/
def bvResize (bv : BitVector) (newLength : ℕ) (init : Bool) : BitVector :=
  if bv.bitCount < newLength then
    if bv.bucketVector.length < requiredBuckets newLength then
      truncateLastBucket ⟨newLength,
        fillMissing bv init ++
          List.replicate (requiredBuckets newLength - bv.bucketVector.length)
            (if init then allOnes else 0)⟩
    else
      truncateLastBucket ⟨newLength, fillMissing bv init⟩
  else
    truncateLastBucket ⟨newLength, bv.bucketVector.take (requiredBuckets newLength)⟩

/-- `BitVector::operator~`: complement every bucket, then truncate. -/
def bvNot (bv : BitVector) : BitVector :=
  truncateLastBucket ⟨bv.bitCount, bv.bucketVector.map compl64⟩

/-- `BitVector::complement()`: the in-place variant of `operator~`. -/
def bvComplement (bv : BitVector) : BitVector :=
  truncateLastBucket ⟨bv.bitCount, bv.bucketVector.map compl64⟩

/-- `BitVector::operator^`: bucketwise xor, then truncate. -/
def bvXor (a b : BitVector) : BitVector :=
  truncateLastBucket
    ⟨a.bitCount, List.zipWith (fun x y => x ^^^ y) a.bucketVector b.bucketVector⟩

/-- `BitVector::implies`: bucketwise `~x | y`, then truncate. -/
def bvImplies (a b : BitVector) : BitVector :=
  truncateLastBucket
    ⟨a.bitCount, List.zipWith (fun x y => compl64 x ||| y) a.bucketVector b.bucketVector⟩

/-- `BitVector::operator&`: bucketwise and, no truncation. -/
def bvAnd (a b : BitVector) : BitVector :=
  ⟨a.bitCount, List.zipWith (fun x y => x &&& y) a.bucketVector b.bucketVector⟩

/-- `BitVector::operator&=`: in-place bucketwise and over the common prefix;
buckets beyond the other operand's storage are kept. -/
def bvAndAssign (a b : BitVector) : BitVector :=
  ⟨a.bitCount, List.zipWith (fun x y => x &&& y) a.bucketVector b.bucketVector
      ++ a.bucketVector.drop b.bucketVector.length⟩

/-- `BitVector::operator|`: bucketwise or, no truncation. -/
def bvOr (a b : BitVector) : BitVector :=
  ⟨a.bitCount, List.zipWith (fun x y => x ||| y) a.bucketVector b.bucketVector⟩

/-- `BitVector::operator|=`: in-place bucketwise or over the common prefix. -/
def bvOrAssign (a b : BitVector) : BitVector :=
  ⟨a.bitCount, List.zipWith (fun x y => x ||| y) a.bucketVector b.bucketVector
      ++ a.bucketVector.drop b.bucketVector.length⟩

/-- `BitVector::operator==`: equal bit counts and bucketwise equal storage. -/
def bvEq (a b : BitVector) : Bool :=
  decide (a.bitCount = b.bitCount) && decide (a.bucketVector = b.bucketVector)

/-- `BitVector::full()`: every bucket except the last is all ones, and the last
bucket contains the mask of the first `bitCount % 64` positions (the whole
bucket when the count is a bucket multiple, via the modulo-64 shift). -/
def bvFull (bv : BitVector) : Bool :=
  (bv.bucketVector.dropLast.all fun v => v == allOnes) &&
    (let mask := compl64 (shlOne (64 - bv.bitCount % 64) - 1)
     (bv.bucketVector.getLast?.getD 0 &&& mask) == mask)

/--
The storage invariant of `BitVector` (maintained by `truncateLastBucket` and by
construction): the bucket count matches the bit count, every bucket is a 64-bit
value, and every storage bit at a position at or beyond `bitCount` is zero.
-/
def WF (bv : BitVector) : Prop :=
  bv.bucketVector.length = requiredBuckets bv.bitCount ∧
  (∀ v ∈ bv.bucketVector, v < 2 ^ 64) ∧
  ∀ i ∈ List.range (64 * bv.bucketVector.length), bv.bitCount ≤ i → bvGet bv i = false

instance (bv : BitVector) : Decidable (WF bv) := by
  unfold WF; infer_instance

/-- The `k`-th bucket of the storage (zero beyond the allocation). -/
def bkt (bv : BitVector) (k : ℕ) : ℕ := bv.bucketVector.getD k 0

lemma bvGet_eq_testBit (bv : BitVector) (i : ℕ) :
    bvGet bv i = Nat.testBit (bkt bv (i / 64)) (63 - i % 64) := rfl

lemma getD_set_self {l : List ℕ} {k : ℕ} (hk : k < l.length) (x : ℕ) :
    (l.set k x).getD k 0 = x := by
  rw [List.getD_eq_getElem _ _ (by simpa using hk)]
  exact List.getElem_set_self (by simpa using hk)

lemma getD_set_ne {l : List ℕ} {k m : ℕ} (h : k ≠ m) (x : ℕ) :
    (l.set k x).getD m 0 = l.getD m 0 := by
  by_cases hm : m < l.length
  · rw [List.getD_eq_getElem _ _ (by simpa using hm), List.getD_eq_getElem _ _ hm]
    exact List.getElem_set_ne h _
  · rw [List.getD_eq_default _ _ (by simpa using Nat.le_of_not_lt hm),
      List.getD_eq_default _ _ (Nat.le_of_not_lt hm)]

lemma getD_replicate_zero {n k : ℕ} : (List.replicate n (0 : ℕ)).getD k 0 = 0 := by
  by_cases hk : k < n
  · rw [List.getD_eq_getElem _ _ (by simpa using hk)]
    exact List.getElem_replicate _ (by simpa using hk)
  · exact List.getD_eq_default _ _ (by simpa using Nat.le_of_not_lt hk)

lemma testBit_allOnes (j : ℕ) : Nat.testBit allOnes j = decide (j < 64) :=
  Nat.testBit_two_pow_sub_one 64 j

lemma allOnes_lt : allOnes < 2 ^ 64 := by norm_num [allOnes]

lemma compl64_lt {v : ℕ} (hv : v < 2 ^ 64) : compl64 v < 2 ^ 64 :=
  Nat.xor_lt_two_pow hv allOnes_lt

lemma testBit_compl64 {v : ℕ} (j : ℕ) (hj : j < 64) :
    (compl64 v).testBit j = !(v.testBit j) := by
  rw [compl64, Nat.testBit_xor, testBit_allOnes]
  simp [hj]

lemma shlOne_sub_one_lt (k : ℕ) : shlOne k - 1 < 2 ^ 64 := by
  have h : shlOne k = 2 ^ (k % 64) := Nat.one_shiftLeft _
  have h2 : 2 ^ (k % 64) ≤ 2 ^ 64 := Nat.pow_le_pow_right (by norm_num) (by omega)
  omega

lemma testBit_shlOne_sub_one (k j : ℕ) : (shlOne k - 1).testBit j = decide (j < k % 64) := by
  rw [shlOne, Nat.one_shiftLeft, Nat.testBit_two_pow_sub_one]

/-- The bits of the truncation mask of `truncateLastBucket`: position `j` of the
last bucket survives iff it belongs to the first `r` logical positions. -/
lemma testBit_truncMask {r j : ℕ} (hr : r ≠ 0) (hr64 : r < 64) (hj : j < 64) :
    (compl64 (shlOne (64 - r) - 1)).testBit j = decide (64 - r ≤ j) := by
  rw [testBit_compl64 _ hj, testBit_shlOne_sub_one]
  have : (64 - r) % 64 = 64 - r := Nat.mod_eq_of_lt (by omega)
  rw [this]
  by_cases h : 64 - r ≤ j <;> simp [h] <;> omega

lemma WF.bkt_lt {bv : BitVector} (h : WF bv) (k : ℕ) : bkt bv k < 2 ^ 64 := by
  by_cases hk : k < bv.bucketVector.length
  · rw [bkt, List.getD_eq_getElem _ _ hk]
    exact h.2.1 _ (List.getElem_mem _)
  · rw [bkt, List.getD_eq_default _ _ (Nat.le_of_not_lt hk)]
    positivity

lemma bvGet_out {bv : BitVector} {i : ℕ} (h : bv.bucketVector.length ≤ i / 64) :
    bvGet bv i = false := by
  rw [bvGet, List.getD_eq_default _ _ h]
  exact Nat.zero_testBit _

/-- Under the invariant, every bit at a position at or beyond `bitCount` reads
as false, with no bound on the position. -/
lemma WF.get_false {bv : BitVector} (h : WF bv) {i : ℕ} (hge : bv.bitCount ≤ i) :
    bvGet bv i = false := by
  by_cases hlt : i / 64 < bv.bucketVector.length
  · exact h.2.2 i (List.mem_range.mpr (by omega)) hge
  · exact bvGet_out (Nat.le_of_not_lt hlt)

/-- The bucket allocation covers the bit count and wastes less than one
bucket. -/
lemma mul64_requiredBuckets (length : ℕ) :
    length ≤ 64 * requiredBuckets length ∧
      64 * requiredBuckets length < length + 64 := by
  unfold requiredBuckets
  split <;> omega

/-- The common construction pattern: a bucket list of the right length with
64-bit entries, passed through `truncateLastBucket`, is well formed. -/
lemma WF_truncate {bitCount : ℕ} {l : List ℕ}
    (hlen : l.length = requiredBuckets bitCount)
    (hbound : ∀ v ∈ l, v < 2 ^ 64) :
    WF (truncateLastBucket ⟨bitCount, l⟩) := by
  have hb := mul64_requiredBuckets bitCount
  by_cases hr : bitCount % 64 = 0
  · rw [truncateLastBucket, if_neg (by simpa using hr)]
    refine ⟨hlen, hbound, ?_⟩
    intro i hi hge
    rw [List.mem_range] at hi
    dsimp only at hi hge
    rw [hlen] at hi
    omega
  · rw [truncateLastBucket, if_pos (by simpa using hr)]
    have hlen' : (modifyLast (fun v => v &&& compl64 (shlOne (64 - bitCount % 64) - 1))
        l).length = l.length := by
      rw [modifyLast, List.length_set]
    refine ⟨by dsimp only; rw [hlen', hlen], ?_, ?_⟩
    · intro v hv
      rcases List.mem_or_eq_of_mem_set hv with hmem | heq
      · exact hbound v hmem
      · rw [heq]
        exact Nat.and_lt_two_pow _ (compl64_lt (shlOne_sub_one_lt _))
    · intro i hi hge
      rw [List.mem_range] at hi
      dsimp only at hi hge
      rw [hlen', hlen] at hi
      have hpos : 0 < requiredBuckets bitCount := by omega
      have hdiv : i / 64 = requiredBuckets bitCount - 1 := by omega
      have hmod : bitCount % 64 ≤ i % 64 := by omega
      rw [bvGet_eq_testBit]
      dsimp only [bkt]
      rw [hdiv, ← hlen, modifyLast, getD_set_self (by omega)]
      rw [Nat.testBit_and]
      have hmask : (compl64 (shlOne (64 - bitCount % 64) - 1)).testBit (63 - i % 64)
          = false := by
        rw [testBit_truncMask hr (by omega) (by omega)]
        simp only [decide_eq_false_iff_not]
        omega
      rw [hmask, Bool.and_false]

lemma bkt_eq_getElem {bv : BitVector} {k : ℕ} (hk : k < bv.bucketVector.length) :
    bkt bv k = bv.bucketVector.get ⟨k, hk⟩ := by
  rw [bkt, List.getD_eq_get _ _ hk]

lemma getD_zipWith {f : ℕ → ℕ → ℕ} {l1 l2 : List ℕ} {k : ℕ}
    (hk : k < (List.zipWith f l1 l2).length) :
    (List.zipWith f l1 l2).getD k 0 = f (l1.getD k 0) (l2.getD k 0) := by
  rw [List.length_zipWith] at hk
  rw [List.getD_eq_getElem _ _ (by rw [List.length_zipWith]; exact hk),
    List.getElem_zipWith, List.getD_eq_getElem _ _ (by omega),
    List.getD_eq_getElem _ _ (by omega)]

lemma zipWith_bound {f : ℕ → ℕ → ℕ} {l1 l2 : List ℕ}
    (h1 : ∀ v ∈ l1, v < 2 ^ 64) (h2 : ∀ v ∈ l2, v < 2 ^ 64)
    (hf : ∀ x y, x < 2 ^ 64 → y < 2 ^ 64 → f x y < 2 ^ 64) :
    ∀ v ∈ List.zipWith f l1 l2, v < 2 ^ 64 := by
  intro v hv
  obtain ⟨k, hk, hkv⟩ := List.mem_iff_getElem.mp hv
  rw [← hkv, List.getElem_zipWith]
  rw [List.length_zipWith] at hk
  exact hf _ _ (h1 _ (List.getElem_mem _)) (h2 _ (List.getElem_mem _))

/-- Well-formedness of the bucketwise binary operations that do not truncate,
for bit-blind combinators that preserve zero bits. -/
lemma wf_zipWith_core (f : ℕ → ℕ → ℕ) {a b : BitVector} (ha : WF a) (hb : WF b)
    (hbc : a.bitCount = b.bitCount)
    (hf_bound : ∀ x y, x < 2 ^ 64 → y < 2 ^ 64 → f x y < 2 ^ 64)
    (hf_false : ∀ (x y : ℕ) (j : ℕ), x.testBit j = false → y.testBit j = false →
      (f x y).testBit j = false) :
    WF ⟨a.bitCount, List.zipWith f a.bucketVector b.bucketVector⟩ := by
  have hlen : b.bucketVector.length = a.bucketVector.length := by
    rw [ha.1, hb.1, hbc]
  refine ⟨?_, zipWith_bound ha.2.1 hb.2.1 hf_bound, ?_⟩
  · rw [List.length_zipWith, hlen, Nat.min_self]
    exact ha.1
  · intro p hp hge
    rw [List.mem_range] at hp
    dsimp only at hp hge
    rw [List.length_zipWith, hlen, Nat.min_self] at hp
    rw [bvGet_eq_testBit]
    dsimp only [bkt]
    rw [getD_zipWith (by rw [List.length_zipWith, hlen, Nat.min_self]; omega)]
    have hga := ha.get_false (i := p) hge
    have hgb := hb.get_false (i := p) (hbc ▸ hge)
    rw [bvGet_eq_testBit, bkt] at hga hgb
    exact hf_false _ _ _ hga hgb

lemma wf_bvAnd {a b : BitVector} (ha : WF a) (hb : WF b)
    (hbc : a.bitCount = b.bitCount) : WF (bvAnd a b) :=
  wf_zipWith_core _ ha hb hbc
    (fun x y _ hy => Nat.and_lt_two_pow x hy)
    (fun x y j hx _ => by rw [Nat.testBit_and, hx, Bool.false_and])

lemma wf_bvOr {a b : BitVector} (ha : WF a) (hb : WF b)
    (hbc : a.bitCount = b.bitCount) : WF (bvOr a b) :=
  wf_zipWith_core _ ha hb hbc
    (fun x y hx hy => Nat.or_lt_two_pow hx hy)
    (fun x y j hx hy => by rw [Nat.testBit_or, hx, hy, Bool.or_false])

lemma bvAndAssign_eq_bvAnd {a b : BitVector}
    (h : b.bucketVector.length = a.bucketVector.length) :
    bvAndAssign a b = bvAnd a b := by
  have hd : a.bucketVector.drop b.bucketVector.length = [] := by
    rw [h]
    exact List.drop_length _
  rw [bvAndAssign, bvAnd, hd, List.append_nil]

lemma bvOrAssign_eq_bvOr {a b : BitVector}
    (h : b.bucketVector.length = a.bucketVector.length) :
    bvOrAssign a b = bvOr a b := by
  have hd : a.bucketVector.drop b.bucketVector.length = [] := by
    rw [h]
    exact List.drop_length _
  rw [bvOrAssign, bvOr, hd, List.append_nil]

lemma wf_bvAndAssign {a b : BitVector} (ha : WF a) (hb : WF b)
    (hbc : a.bitCount = b.bitCount) : WF (bvAndAssign a b) := by
  rw [bvAndAssign_eq_bvAnd (by rw [ha.1, hb.1, hbc])]
  exact wf_bvAnd ha hb hbc

lemma wf_bvOrAssign {a b : BitVector} (ha : WF a) (hb : WF b)
    (hbc : a.bitCount = b.bitCount) : WF (bvOrAssign a b) := by
  rw [bvOrAssign_eq_bvOr (by rw [ha.1, hb.1, hbc])]
  exact wf_bvOr ha hb hbc

lemma wf_bvXor {a b : BitVector} (ha : WF a) (hb : WF b)
    (hbc : a.bitCount = b.bitCount) : WF (bvXor a b) := by
  refine WF_truncate ?_ ?_
  · rw [List.length_zipWith, ha.1, hb.1, hbc, Nat.min_self, ← hbc]
  · exact zipWith_bound ha.2.1 hb.2.1 fun x y hx hy => Nat.xor_lt_two_pow hx hy

lemma wf_bvImplies {a b : BitVector} (ha : WF a) (hb : WF b)
    (hbc : a.bitCount = b.bitCount) : WF (bvImplies a b) := by
  refine WF_truncate ?_ ?_
  · rw [List.length_zipWith, ha.1, hb.1, hbc, Nat.min_self, ← hbc]
  · exact zipWith_bound ha.2.1 hb.2.1 fun x y hx hy =>
      Nat.or_lt_two_pow (compl64_lt hx) hy

lemma map_compl64_bound {l : List ℕ} (h : ∀ v ∈ l, v < 2 ^ 64) :
    ∀ v ∈ l.map compl64, v < 2 ^ 64 := by
  intro v hv
  obtain ⟨x, hx, rfl⟩ := List.mem_map.mp hv
  exact compl64_lt (h x hx)

lemma wf_bvNot {bv : BitVector} (h : WF bv) : WF (bvNot bv) :=
  WF_truncate (by rw [List.length_map]; exact h.1) (map_compl64_bound h.2.1)

lemma wf_bvComplement {bv : BitVector} (h : WF bv) : WF (bvComplement bv) :=
  WF_truncate (by rw [List.length_map]; exact h.1) (map_compl64_bound h.2.1)

lemma wf_mkBitVector (length : ℕ) (init : Bool) : WF (mkBitVector length init) := by
  cases init with
  | true =>
    rw [mkBitVector, if_pos rfl]
    exact WF_truncate (by rw [List.length_replicate]) fun v hv => by
      rw [List.eq_of_mem_replicate hv]
      exact allOnes_lt
  | false =>
    rw [mkBitVector, if_neg (by simp)]
    refine ⟨by rw [List.length_replicate], ?_, ?_⟩
    · intro v hv
      rw [List.eq_of_mem_replicate hv]
      positivity
    · intro i hi hge
      rw [bvGet_eq_testBit]
      dsimp only [bkt]
      rw [getD_replicate_zero]
      exact Nat.zero_testBit _

/-- Setting a bit inside the logical range touches exactly that bit. -/
lemma bvGet_bvSet {bv : BitVector} (h : WF bv) {i : ℕ} (hi : i < bv.bitCount)
    (v : Bool) (p : ℕ) :
    bvGet (bvSet bv i v) p = if p = i then v else bvGet bv p := by
  have hb := mul64_requiredBuckets bv.bitCount
  have hdivlt : i / 64 < bv.bucketVector.length := by
    rw [h.1]
    omega
  by_cases hk : p / 64 = i / 64
  · rw [bvGet_eq_testBit]
    dsimp only [bkt]
    cases v with
    | true =>
      rw [bvSet]
      dsimp only
      rw [if_pos rfl, hk, getD_set_self hdivlt]
      by_cases hpi : p = i
      · subst hpi
        rw [Nat.testBit_or, Nat.one_shiftLeft, Nat.testBit_two_pow_self,
          Bool.or_true, if_pos rfl]
      · rw [if_neg hpi, Nat.testBit_or, Nat.one_shiftLeft,
          Nat.testBit_two_pow_of_ne (by omega), Bool.or_false, bvGet_eq_testBit,
          bkt, hk]
    | false =>
      rw [bvSet]
      dsimp only
      rw [if_neg (by simp), hk, getD_set_self hdivlt]
      by_cases hpi : p = i
      · subst hpi
        rw [Nat.testBit_and, testBit_compl64 _ (by omega), Nat.one_shiftLeft,
          Nat.testBit_two_pow_self, if_pos rfl]
        simp
      · rw [if_neg hpi, Nat.testBit_and, testBit_compl64 _ (by omega),
          Nat.one_shiftLeft, Nat.testBit_two_pow_of_ne (by omega), bvGet_eq_testBit,
          bkt, hk]
        simp
  · have hpi : p ≠ i := by omega
    rw [if_neg hpi, bvGet_eq_testBit, bvGet_eq_testBit]
    dsimp only [bkt]
    cases v with
    | true =>
      rw [bvSet]
      dsimp only
      rw [if_pos rfl, getD_set_ne (fun hkk => hk hkk.symm)]
    | false =>
      rw [bvSet]
      dsimp only
      rw [if_neg (by simp), getD_set_ne (fun hkk => hk hkk.symm)]

lemma wf_bvSet {bv : BitVector} (h : WF bv) {i : ℕ} (hi : i < bv.bitCount)
    (v : Bool) : WF (bvSet bv i v) := by
  have hb := mul64_requiredBuckets bv.bitCount
  have hdivlt : i / 64 < bv.bucketVector.length := by
    rw [h.1]
    omega
  have hlen : (bvSet bv i v).bucketVector.length = bv.bucketVector.length := by
    rw [bvSet]
    dsimp only
    cases v <;> simp
  refine ⟨?_, ?_, ?_⟩
  · rw [hlen]
    exact h.1
  · intro x hx
    rw [bvSet] at hx
    dsimp only at hx
    have hmask : (1 <<< (63 - i % 64)) < 2 ^ 64 := by
      rw [Nat.one_shiftLeft]
      exact Nat.pow_lt_pow_right (by norm_num) (by omega)
    cases v with
    | true =>
      rw [if_pos rfl] at hx
      rcases List.mem_or_eq_of_mem_set hx with hmem | heq
      · exact h.2.1 x hmem
      · rw [heq]
        exact Nat.or_lt_two_pow (h.bkt_lt _) hmask
    | false =>
      rw [if_neg (by simp)] at hx
      rcases List.mem_or_eq_of_mem_set hx with hmem | heq
      · exact h.2.1 x hmem
      · rw [heq]
        exact Nat.and_lt_two_pow _ (compl64_lt hmask)
  · intro p hp hge
    rw [List.mem_range, hlen] at hp
    have hge' : bv.bitCount ≤ p := hge
    rw [bvGet_bvSet h hi v p, if_neg (by omega)]
    exact h.get_false hge'

lemma fillMissing_length (bv : BitVector) (init : Bool) :
    (fillMissing bv init).length = bv.bucketVector.length := by
  cases init with
  | false => rfl
  | true =>
    rw [fillMissing, if_pos rfl, modifyLast, List.length_set]

lemma fillMissing_bound {bv : BitVector} (h : WF bv) (init : Bool) :
    ∀ v ∈ fillMissing bv init, v < 2 ^ 64 := by
  cases init with
  | false => exact h.2.1
  | true =>
    intro v hv
    rw [fillMissing, if_pos rfl] at hv
    rcases List.mem_or_eq_of_mem_set hv with hmem | heq
    · exact h.2.1 v hmem
    · rw [heq]
      exact Nat.or_lt_two_pow (h.bkt_lt _) (shlOne_sub_one_lt _)

lemma wf_bvResize {bv : BitVector} (h : WF bv) (newLength : ℕ) (init : Bool) :
    WF (bvResize bv newLength init) := by
  have h1 := mul64_requiredBuckets bv.bitCount
  have h2 := mul64_requiredBuckets newLength
  have hl := h.1
  rw [bvResize]
  by_cases hgrow : bv.bitCount < newLength
  · rw [if_pos hgrow]
    by_cases halloc : bv.bucketVector.length < requiredBuckets newLength
    · rw [if_pos halloc]
      refine WF_truncate ?_ ?_
      · rw [List.length_append, fillMissing_length, List.length_replicate]
        omega
      · intro v hv
        rw [List.mem_append] at hv
        rcases hv with hv | hv
        · exact fillMissing_bound h init v hv
        · rw [List.eq_of_mem_replicate hv]
          cases init
          · positivity
          · exact allOnes_lt
    · rw [if_neg halloc]
      refine WF_truncate ?_ (fillMissing_bound h init)
      rw [fillMissing_length]
      omega
  · rw [if_neg hgrow]
    refine WF_truncate ?_ ?_
    · rw [List.length_take, hl]
      omega
    · intro v hv
      exact h.2.1 v (List.take_subset _ _ hv)

/-- Two well-formed bit vectors of the same length with equal bits are equal. -/
lemma eq_of_pointwise {a b : BitVector} (ha : WF a) (hb : WF b)
    (hbc : a.bitCount = b.bitCount)
    (hpt : ∀ i < a.bitCount, bvGet a i = bvGet b i) : a = b := by
  have hlen : a.bucketVector.length = b.bucketVector.length := by
    rw [ha.1, hb.1, hbc]
  have hbuckets : a.bucketVector = b.bucketVector := by
    refine List.ext_getElem hlen ?_
    intro k hk1 hk2
    refine Nat.eq_of_testBit_eq fun j => ?_
    by_cases hj : j < 64
    · have hp1 : (64 * k + (63 - j)) / 64 = k := by omega
      have hp2 : 63 - (64 * k + (63 - j)) % 64 = j := by omega
      have hga : bvGet a (64 * k + (63 - j)) = a.bucketVector[k].testBit j := by
        rw [bvGet_eq_testBit, hp1, hp2, bkt, List.getD_eq_getElem _ _ hk1]
      have hgb : bvGet b (64 * k + (63 - j)) = b.bucketVector[k].testBit j := by
        rw [bvGet_eq_testBit, hp1, hp2, bkt, List.getD_eq_getElem _ _ hk2]
      by_cases hlt : 64 * k + (63 - j) < a.bitCount
      · rw [← hga, ← hgb]
        exact hpt _ hlt
      · rw [← hga, ← hgb, ha.get_false (by omega), hb.get_false (by omega)]
    · have ba := ha.2.1 _ (List.getElem_mem hk1)
      have bb := hb.2.1 _ (List.getElem_mem hk2)
      rw [Nat.testBit_lt_two_pow
          (lt_of_lt_of_le ba (Nat.pow_le_pow_right (by norm_num) (by omega))),
        Nat.testBit_lt_two_pow
          (lt_of_lt_of_le bb (Nat.pow_le_pow_right (by norm_num) (by omega)))]
  cases a
  cases b
  simp_all

/-- Under the invariant, the bucket-wise `operator==` coincides with position-wise
equality of the first `bitCount` bits. -/
lemma bvEq_iff {a b : BitVector} (ha : WF a) (hb : WF b)
    (hbc : a.bitCount = b.bitCount) :
    (bvEq a b = true) ↔ ∀ i < a.bitCount, bvGet a i = bvGet b i := by
  rw [bvEq, Bool.and_eq_true, decide_eq_true_eq, decide_eq_true_eq]
  constructor
  · rintro ⟨_, h2⟩ i _
    rw [bvGet, bvGet, h2]
  · intro hpt
    have := eq_of_pointwise ha hb hbc hpt
    cases this
    exact ⟨rfl, rfl⟩

/-- The bits of the `full()` mask: position `j` of the last bucket is checked
iff it corresponds to a logical position below `bitCount` (the whole bucket for
bucket-multiple counts, via the modulo-64 shift). -/
lemma testBit_fullMask {r j : ℕ} (hr : r < 64) (hj : j < 64) :
    (compl64 (shlOne (64 - r) - 1)).testBit j = decide ((64 - r) % 64 ≤ j) := by
  rw [testBit_compl64 _ hj, testBit_shlOne_sub_one]
  by_cases h0 : r = 0
  · subst h0
    simp
  · have hm : (64 - r) % 64 = 64 - r := Nat.mod_eq_of_lt (by omega)
    rw [hm]
    by_cases h : 64 - r ≤ j <;> simp [h] <;> omega

/-- Under the invariant, `full()` returns true iff all `bitCount` bits are set. -/
lemma bvFull_iff {bv : BitVector} (h : WF bv) (hpos : 0 < bv.bitCount) :
    (bvFull bv = true) ↔ ∀ i < bv.bitCount, bvGet bv i = true := by
  have hb := mul64_requiredBuckets bv.bitCount
  have hl := h.1
  have hLpos : 0 < bv.bucketVector.length := by omega
  have hlast : bv.bucketVector.getLast?.getD 0
      = bkt bv (bv.bucketVector.length - 1) := by
    rw [List.getLast?_eq_getElem?, bkt,
      List.getD_eq_getElem _ _ (by omega), List.getElem?_eq_getElem (by omega)]
    rfl
  rw [bvFull, Bool.and_eq_true, List.all_eq_true, hlast]
  constructor
  · rintro ⟨hdrop, hmask⟩ i hi
    rw [beq_iff_eq] at hmask
    have hik : i / 64 < bv.bucketVector.length := by omega
    rw [bvGet_eq_testBit]
    by_cases hk : i / 64 < bv.bucketVector.length - 1
    · have hmem : bkt bv (i / 64) ∈ bv.bucketVector.dropLast := by
        rw [bkt, List.getD_eq_getElem _ _ hik, ← List.getElem_dropLast _ _
          (by rw [List.length_dropLast]; omega)]
        exact List.getElem_mem _
      have := hdrop _ hmem
      rw [beq_iff_eq] at this
      rw [this, testBit_allOnes]
      simp only [decide_eq_true_eq]
      omega
    · have hk' : i / 64 = bv.bucketVector.length - 1 := by omega
      have hmb : (compl64 (shlOne (64 - bv.bitCount % 64) - 1)).testBit (63 - i % 64)
          = true := by
        rw [testBit_fullMask (by omega) (by omega)]
        simp only [decide_eq_true_eq]
        omega
      have htb := congrArg (fun v => v.testBit (63 - i % 64)) hmask
      simp only [Nat.testBit_and, hmb, Bool.and_true] at htb
      rw [← hk']  at htb
      exact htb
  · intro hpt
    constructor
    · intro v hv
      rw [beq_iff_eq]
      obtain ⟨k, hk, hkv⟩ := List.mem_iff_getElem.mp hv
      rw [List.length_dropLast] at hk
      rw [← hkv, List.getElem_dropLast]
      refine Nat.eq_of_testBit_eq fun j => ?_
      by_cases hj : j < 64
      · have hp1 : (64 * k + (63 - j)) / 64 = k := by omega
        have hp2 : 63 - (64 * k + (63 - j)) % 64 = j := by omega
        have hglt : 64 * k + (63 - j) < bv.bitCount := by omega
        have := hpt _ hglt
        rw [bvGet_eq_testBit, hp1, hp2, bkt, List.getD_eq_getElem _ _ (by omega)]
          at this
        rw [this, testBit_allOnes]
        simp [hj]
      · have bk := h.2.1 _ (List.getElem_mem (Nat.lt_of_lt_of_le hk (by omega)))
        rw [Nat.testBit_lt_two_pow
            (lt_of_lt_of_le bk (Nat.pow_le_pow_right (by norm_num) (by omega))),
          Nat.testBit_lt_two_pow
            (lt_of_lt_of_le allOnes_lt (Nat.pow_le_pow_right (by norm_num) (by omega)))]
    · rw [beq_iff_eq]
      refine Nat.eq_of_testBit_eq fun j => ?_
      rw [Nat.testBit_and]
      by_cases hj : j < 64
      · by_cases hmb : (compl64 (shlOne (64 - bv.bitCount % 64) - 1)).testBit j = true
        · rw [hmb, Bool.and_true]
          rw [testBit_fullMask (by omega) (by omega)] at hmb
          simp only [decide_eq_true_eq] at hmb
          have hplt : 64 * (bv.bucketVector.length - 1) + (63 - j) < bv.bitCount := by
            omega
          have := hpt _ hplt
          rw [bvGet_eq_testBit] at this
          have hp1 : (64 * (bv.bucketVector.length - 1) + (63 - j)) / 64
              = bv.bucketVector.length - 1 := by omega
          have hp2 : 63 - (64 * (bv.bucketVector.length - 1) + (63 - j)) % 64 = j := by
            omega
          rw [hp1, hp2] at this
          exact this
        · rw [Bool.not_eq_true] at hmb
          rw [hmb, Bool.and_false]
      · have bk := h.bkt_lt (bv.bucketVector.length - 1)
        rw [Nat.testBit_lt_two_pow
            (lt_of_lt_of_le bk (Nat.pow_le_pow_right (by norm_num) (by omega))),
          Bool.false_and,
          Nat.testBit_lt_two_pow
            (lt_of_lt_of_le (compl64_lt (shlOne_sub_one_lt _))
              (Nat.pow_le_pow_right (by norm_num) (by omega)))]

/--
C8: every `BitVector` operation — construction with a length, `set`, `resize`,
`complement`, `operator~`, `operator^`, `implies`, `operator&`, `operator|`,
`operator|=`, `operator&=` — preserves the invariant that all bits at positions
at or beyond `bitCount` in the storage are zero (with 64-bit buckets of the
right allocation); under this invariant the bucket-wise `operator==` coincides
with position-wise equality of the first `bitCount` bits, and `full()` returns
true iff all `bitCount` bits are set.
-/
theorem c8_bitvector_invariant :
    (∀ (length : ℕ) (init : Bool), WF (mkBitVector length init)) ∧
    (∀ (bv : BitVector) (i : ℕ) (v : Bool), WF bv → i < bv.bitCount →
      WF (bvSet bv i v)) ∧
    (∀ (bv : BitVector) (newLength : ℕ) (init : Bool), WF bv →
      WF (bvResize bv newLength init)) ∧
    (∀ bv : BitVector, WF bv → WF (bvComplement bv)) ∧
    (∀ bv : BitVector, WF bv → WF (bvNot bv)) ∧
    (∀ a b : BitVector, WF a → WF b → a.bitCount = b.bitCount → WF (bvXor a b)) ∧
    (∀ a b : BitVector, WF a → WF b → a.bitCount = b.bitCount → WF (bvImplies a b)) ∧
    (∀ a b : BitVector, WF a → WF b → a.bitCount = b.bitCount → WF (bvAnd a b)) ∧
    (∀ a b : BitVector, WF a → WF b → a.bitCount = b.bitCount → WF (bvOr a b)) ∧
    (∀ a b : BitVector, WF a → WF b → a.bitCount = b.bitCount →
      WF (bvAndAssign a b)) ∧
    (∀ a b : BitVector, WF a → WF b → a.bitCount = b.bitCount →
      WF (bvOrAssign a b)) ∧
    (∀ a b : BitVector, WF a → WF b → a.bitCount = b.bitCount →
      ((bvEq a b = true) ↔ ∀ i < a.bitCount, bvGet a i = bvGet b i)) ∧
    (∀ bv : BitVector, WF bv → 0 < bv.bitCount →
      ((bvFull bv = true) ↔ ∀ i < bv.bitCount, bvGet bv i = true)) :=
  ⟨wf_mkBitVector,
    fun _ _ v h hi => wf_bvSet h hi v,
    fun _ newLength init h => wf_bvResize h newLength init,
    fun _ h => wf_bvComplement h,
    fun _ h => wf_bvNot h,
    fun _ _ ha hb hbc => wf_bvXor ha hb hbc,
    fun _ _ ha hb hbc => wf_bvImplies ha hb hbc,
    fun _ _ ha hb hbc => wf_bvAnd ha hb hbc,
    fun _ _ ha hb hbc => wf_bvOr ha hb hbc,
    fun _ _ ha hb hbc => wf_bvAndAssign ha hb hbc,
    fun _ _ ha hb hbc => wf_bvOrAssign ha hb hbc,
    fun _ _ ha hb hbc => bvEq_iff ha hb hbc,
    fun _ h hpos => bvFull_iff h hpos⟩

/-- C8 witness: the invariant statements instantiated on concrete 70-bit
vectors (two buckets, a partial last bucket). -/
theorem c8_bitvector_invariant_witness :
    WF (bvSet (mkBitVector 70 true) 3 false) ∧
    WF (bvXor (mkBitVector 70 true) (mkBitVector 70 false)) ∧
    ((bvFull (mkBitVector 70 true) = true) ↔
      ∀ i < (mkBitVector 70 true).bitCount, bvGet (mkBitVector 70 true) i = true) :=
  ⟨c8_bitvector_invariant.2.1 (mkBitVector 70 true) 3 false (by decide) (by decide),
    c8_bitvector_invariant.2.2.2.2.2.1 (mkBitVector 70 true) (mkBitVector 70 false)
      (by decide) (by decide) (by decide),
    c8_bitvector_invariant.2.2.2.2.2.2.2.2.2.2.2.2 (mkBitVector 70 true)
      (by decide) (by decide)⟩

/-- The increasing sequence of set-bit indices of a vector: what the source's
`const_iterator` (`begin()`/`end()` over `getNextSetIndex`) yields. -/
def setIndices (bv : BitVector) : List ℕ :=
  (List.range bv.bitCount).filter fun i => bvGet bv i

/-- The population count of one bucket (`__builtin_popcountll`). -/
def popcount (v : ℕ) : ℕ := ((List.range 64).filter fun j => v.testBit j).length

/-- `BitVector::getNumberOfSetBitsBeforeIndex`: the popcounts of the full
buckets before the index's bucket, plus the popcount of the index's bucket
masked to the positions before the index. -/
def numSetBitsBefore (bv : BitVector) (index : ℕ) : ℕ :=
  ((bv.bucketVector.take (index / 64)).map popcount).sum +
    if index % 64 ≠ 0 then
      popcount (compl64 (shlOne (64 - index % 64) - 1) &&& bkt bv (index / 64))
    else 0

/-- `BitVector::getNumberOfSetBits`: all set bits of the storage
(`getNumberOfSetBitsBeforeIndex(bucketVector.size() << 6)`). -/
def numSetBits (bv : BitVector) : ℕ :=
  numSetBitsBefore bv (bv.bucketVector.length * 64)

/-- The number of set positions below a bound, as a `Finset` count. -/
def cardBelow (bv : BitVector) (m : ℕ) : ℕ :=
  ((Finset.range m).filter fun p => bvGet bv p = true).card

lemma length_filter_range (n : ℕ) (p : ℕ → Bool) :
    ((List.range n).filter p).length
      = ((Finset.range n).filter fun i => p i = true).card := by
  induction n with
  | zero => rfl
  | succ n ih =>
    rw [List.range_succ, List.filter_append, List.length_append, Finset.range_succ,
      Finset.filter_insert]
    by_cases h : p n = true
    · rw [if_pos h, Finset.card_insert_of_not_mem (by simp)]
      simp [h, ih]
    · rw [if_neg h]
      simp [h, ih]

/-- The set positions covered by one full bucket, counted through the word's
bits. -/
lemma card_bucket_filter (bv : BitVector) (k : ℕ) :
    ((Finset.Ico (64 * k) (64 * k + 64)).filter fun p => bvGet bv p = true).card
      = popcount (bkt bv k) := by
  rw [popcount, length_filter_range]
  refine Finset.card_nbij' (fun p => 63 - p % 64) (fun j => 64 * k + (63 - j))
    ?_ ?_ ?_ ?_
  · intro p hp
    simp only [Finset.mem_filter, Finset.mem_Ico] at hp
    simp only [Finset.mem_filter, Finset.mem_range]
    refine ⟨by omega, ?_⟩
    have hg := hp.2
    rw [bvGet_eq_testBit] at hg
    have hdiv : p / 64 = k := by omega
    rw [hdiv] at hg
    exact hg
  · intro j hj
    simp only [Finset.mem_filter, Finset.mem_range] at hj
    simp only [Finset.mem_filter, Finset.mem_Ico]
    refine ⟨by omega, ?_⟩
    rw [bvGet_eq_testBit]
    have hdiv : (64 * k + (63 - j)) / 64 = k := by omega
    have hmod : 63 - (64 * k + (63 - j)) % 64 = j := by omega
    rw [hdiv, hmod]
    exact hj.2
  · intro p hp
    simp only [Finset.mem_filter, Finset.mem_Ico] at hp
    show 64 * k + (63 - (63 - p % 64)) = p
    omega
  · intro j hj
    simp only [Finset.mem_filter, Finset.mem_range] at hj
    show 63 - (64 * k + (63 - j)) % 64 = j
    omega

/-- The set positions covered by the masked part of a partial bucket. -/
lemma card_partial_filter (bv : BitVector) (k r : ℕ) (hr0 : r ≠ 0) (hr : r < 64) :
    ((Finset.Ico (64 * k) (64 * k + r)).filter fun p => bvGet bv p = true).card
      = popcount (compl64 (shlOne (64 - r) - 1) &&& bkt bv k) := by
  rw [popcount, length_filter_range]
  refine Finset.card_nbij' (fun p => 63 - p % 64) (fun j => 64 * k + (63 - j))
    ?_ ?_ ?_ ?_
  · intro p hp
    simp only [Finset.mem_filter, Finset.mem_Ico] at hp
    simp only [Finset.mem_filter, Finset.mem_range]
    refine ⟨by omega, ?_⟩
    have hg := hp.2
    rw [bvGet_eq_testBit] at hg
    have hdiv : p / 64 = k := by omega
    rw [hdiv] at hg
    rw [Nat.testBit_and, hg, Bool.and_true, testBit_fullMask (r := r) (by omega)
      (by omega)]
    simp only [decide_eq_true_eq]
    omega
  · intro j hj
    simp only [Finset.mem_filter, Finset.mem_range] at hj
    simp only [Finset.mem_filter, Finset.mem_Ico]
    have hmask := hj.2
    rw [Nat.testBit_and, testBit_fullMask (r := r) (by omega) (by omega)] at hmask
    have hge : (64 - r) % 64 ≤ j := by
      by_contra hcon
      rw [decide_eq_false_iff_not.mpr hcon, Bool.false_and] at hmask
      exact Bool.noConfusion hmask
    have hr64 : (64 - r) % 64 = 64 - r := Nat.mod_eq_of_lt (by omega)
    refine ⟨by omega, ?_⟩
    rw [bvGet_eq_testBit]
    have hdiv : (64 * k + (63 - j)) / 64 = k := by omega
    have hmod : 63 - (64 * k + (63 - j)) % 64 = j := by omega
    rw [hdiv, hmod]
    rcases Bool.and_eq_true _ _ |>.mp hmask with ⟨_, hb⟩
    exact hb
  · intro p hp
    simp only [Finset.mem_filter, Finset.mem_Ico] at hp
    show 64 * k + (63 - (63 - p % 64)) = p
    omega
  · intro j hj
    simp only [Finset.mem_filter, Finset.mem_range] at hj
    have hmask := hj.2
    rw [Nat.testBit_and, testBit_fullMask (r := r) (by omega) (by omega)] at hmask
    have hge : (64 - r) % 64 ≤ j := by
      by_contra hcon
      rw [decide_eq_false_iff_not.mpr hcon, Bool.false_and] at hmask
      exact Bool.noConfusion hmask
    have hr64 : (64 - r) % 64 = 64 - r := Nat.mod_eq_of_lt (by omega)
    show 63 - (64 * k + (63 - j)) % 64 = j
    omega

lemma cardBelow_split (bv : BitVector) {a b : ℕ} (hab : a ≤ b) :
    cardBelow bv b = cardBelow bv a
      + ((Finset.Ico a b).filter fun p => bvGet bv p = true).card := by
  rw [cardBelow, cardBelow]
  have hsplit : Finset.range b = Finset.range a ∪ Finset.Ico a b := by
    rw [Finset.range_eq_Ico, Finset.Ico_union_Ico_eq_Ico (Nat.zero_le a) hab]
  rw [hsplit, Finset.filter_union, Finset.card_union_of_disjoint]
  rw [Finset.disjoint_left]
  intro x hx hx'
  rw [Finset.mem_filter, Finset.mem_range] at hx
  rw [Finset.mem_filter, Finset.mem_Ico] at hx'
  omega

lemma sum_take_popcount (bv : BitVector) :
    ∀ k, k ≤ bv.bucketVector.length →
      ((bv.bucketVector.take k).map popcount).sum = cardBelow bv (64 * k) := by
  intro k
  induction k with
  | zero =>
    intro _
    simp [cardBelow]
  | succ k ih =>
    intro hk
    have hklt : k < bv.bucketVector.length := by omega
    have hstep : (bv.bucketVector.take (k + 1)).map popcount
        = (bv.bucketVector.take k).map popcount ++ [popcount bv.bucketVector[k]] := by
      rw [List.take_succ, List.getElem?_eq_getElem hklt]
      simp only [Option.toList_some, List.map_append, List.map_cons, List.map_nil]
    rw [hstep, List.sum_append, ih (by omega)]
    have hbkt : bv.bucketVector[k] = bkt bv k := by
      rw [bkt, List.getD_eq_getElem _ _ hklt]
    rw [hbkt]
    rw [cardBelow_split bv (show 64 * k ≤ 64 * (k + 1) by omega)]
    have hico : (64 : ℕ) * (k + 1) = 64 * k + 64 := by ring
    rw [hico, card_bucket_filter bv k]
    simp

/-- `getNumberOfSetBitsBeforeIndex` counts exactly the set positions below the
index. -/
lemma numSetBitsBefore_eq_cardBelow (bv : BitVector) (i : ℕ)
    (hi : i ≤ 64 * bv.bucketVector.length) :
    numSetBitsBefore bv i = cardBelow bv i := by
  rw [numSetBitsBefore]
  by_cases hr : i % 64 = 0
  · rw [if_neg (by simpa using hr), add_zero,
      sum_take_popcount bv (i / 64) (by omega)]
    have : 64 * (i / 64) = i := by omega
    rw [this]
  · rw [if_pos (by simpa using hr),
      sum_take_popcount bv (i / 64) (by omega),
      ← card_partial_filter bv (i / 64) (i % 64) hr (by omega)]
    rw [cardBelow_split bv (show 64 * (i / 64) ≤ i by omega)]
    have : 64 * (i / 64) + i % 64 = i := by omega
    rw [this]

/-- Under the invariant, `getNumberOfSetBits` is the length of the set-bit
index sequence. -/
lemma numSetBits_eq_length {bv : BitVector} (h : WF bv) :
    numSetBits bv = (setIndices bv).length := by
  have hb := mul64_requiredBuckets bv.bitCount
  have hl := h.1
  rw [numSetBits, numSetBitsBefore_eq_cardBelow bv _ (by omega),
    setIndices, length_filter_range]
  rw [show bv.bucketVector.length * 64 = 64 * bv.bucketVector.length by ring]
  rw [cardBelow_split bv (show bv.bitCount ≤ 64 * bv.bucketVector.length by omega)]
  have hzero : ((Finset.Ico bv.bitCount (64 * bv.bucketVector.length)).filter
      fun p => bvGet bv p = true).card = 0 := by
    rw [Finset.card_eq_zero, Finset.filter_eq_empty_iff]
    intro p hp
    rw [Finset.mem_Ico] at hp
    rw [h.get_false hp.1]
    simp
  rw [hzero, add_zero, cardBelow]

/-- The k-th set index has exactly k set indices before it. -/
lemma rank_of_get (p : ℕ → Bool) :
    ∀ (n k : ℕ) (hk : k < ((List.range n).filter p).length),
      ((List.range (((List.range n).filter p).get ⟨k, hk⟩)).filter p).length = k := by
  intro n
  induction n with
  | zero => intro k hk; simp at hk
  | succ n ih =>
    intro k hk
    have hsplit : (List.range (n + 1)).filter p
        = (List.range n).filter p ++ [n].filter p := by
      rw [List.range_succ, List.filter_append]
    by_cases hlt : k < ((List.range n).filter p).length
    · have h1 : ((List.range (n + 1)).filter p)[k]?
          = ((List.range n).filter p)[k]? := by
        rw [hsplit, List.getElem?_append, if_pos hlt]
      rw [List.getElem?_eq_getElem hk, List.getElem?_eq_getElem hlt] at h1
      have hget : ((List.range (n + 1)).filter p).get ⟨k, hk⟩
          = ((List.range n).filter p).get ⟨k, hlt⟩ := by
        simp only [List.get_eq_getElem]
        exact Option.some.inj h1
      rw [hget]
      exact ih k hlt
    · by_cases hp : p n = true
      · have hfil : [n].filter p = [n] := by simp [hp]
        have hlen : ((List.range (n + 1)).filter p).length
            = ((List.range n).filter p).length + 1 := by
          rw [hsplit, hfil, List.length_append, List.length_singleton]
        have hke : k = ((List.range n).filter p).length := by omega
        have h1 : ((List.range (n + 1)).filter p)[k]? = some n := by
          rw [hsplit, hfil, hke, List.getElem?_concat_length]
        rw [List.getElem?_eq_getElem hk] at h1
        have hget : ((List.range (n + 1)).filter p).get ⟨k, hk⟩ = n := by
          simp only [List.get_eq_getElem]
          exact Option.some.inj h1
        rw [hget, hke]
      · exfalso
        have hfil : [n].filter p = [] := by
          simp [List.filter, hp]
        rw [hsplit, hfil, List.append_nil] at hk
        exact hlt hk

/-- Membership plus rank determines the position in the set-index sequence. -/
lemma get_of_rank {n : ℕ} {p : ℕ → Bool} {bit k : ℕ}
    (hbit : bit ∈ (List.range n).filter p)
    (hrank : ((List.range bit).filter p).length = k) :
    ∃ hk : k < ((List.range n).filter p).length,
      ((List.range n).filter p).get ⟨k, hk⟩ = bit := by
  obtain ⟨⟨m, hm⟩, hmb⟩ := List.mem_iff_get.mp hbit
  have hr := rank_of_get p n m hm
  rw [hmb] at hr
  have hkm : k = m := by rw [← hrank, hr]
  subst hkm
  exact ⟨hm, hmb⟩

/-- One step of the first branch of `operator%`: walk the own set bits,
setting the running position in the result whenever the filter has the bit
(the source iterates the filter and queries `get(bit)` on `*this`; the
two views coincide because both walk `filter`'s set bits in order). -/
def branch1Step (b : BitVector) (a : BitVector × ℕ) (bit : ℕ) : BitVector × ℕ :=
  (if bvGet b bit then bvSet a.1 a.2 true else a.1, a.2 + 1)

/-- First branch of `BitVector::operator%` (manual iteration with a running
counter `currentPosition`). -/
def bvModFilterBranch (b filterBv : BitVector) : BitVector :=
  ((setIndices filterBv).foldl (branch1Step b)
    (mkBitVector (numSetBits filterBv) false, 0)).1

/-- One step of the second branch of `operator%`: for each own set bit that
the filter also has, set `filter.getNumberOfSetBitsBeforeIndex(bit)` in the
result. -/
def branch2Step (filterBv : BitVector) (acc : BitVector) (bit : ℕ) : BitVector :=
  if bvGet filterBv bit then bvSet acc (numSetBitsBefore filterBv bit) true else acc

/-- Second branch of `BitVector::operator%` (rank-based placement, used when
this vector has few set bits). -/
def bvModSelfBranch (b filterBv : BitVector) : BitVector :=
  (setIndices b).foldl (branch2Step filterBv) (mkBitVector (numSetBits filterBv) false)

/-- `BitVector::operator%`: result sized to the filter's popcount; branch
chosen by the `getNumberOfSetBits() / 10 < other.getNumberOfSetBits()`
heuristic. -/
def bvMod (b filterBv : BitVector) : BitVector :=
  if numSetBits filterBv / 10 < numSetBits b then
    bvModFilterBranch b filterBv
  else
    bvModSelfBranch b filterBv

lemma bvSet_bitCount (bv : BitVector) (i : ℕ) (v : Bool) :
    (bvSet bv i v).bitCount = bv.bitCount := rfl

lemma mkBitVector_false_bitCount (n : ℕ) : (mkBitVector n false).bitCount = n := rfl

lemma bvGet_mkBitVector_false (n p : ℕ) : bvGet (mkBitVector n false) p = false := by
  rw [mkBitVector, if_neg (by simp), bvGet]
  dsimp only
  rw [getD_replicate_zero]
  exact Nat.zero_testBit _

/-- A set bit's rank is the number of set positions strictly below it. -/
lemma numSetBitsBefore_eq_length {bv : BitVector} {bit : ℕ}
    (hbit : bit ≤ 64 * bv.bucketVector.length) :
    numSetBitsBefore bv bit
      = ((List.range bit).filter fun i => bvGet bv i).length := by
  rw [numSetBitsBefore_eq_cardBelow bv bit hbit, cardBelow, ← length_filter_range]

/-- A set bit's rank is below the total number of set bits. -/
lemma rank_lt_numSetBits {bv : BitVector} (h : WF bv) {bit : ℕ}
    (hbit : bit < bv.bitCount) (hset : bvGet bv bit = true) :
    numSetBitsBefore bv bit < numSetBits bv := by
  have hb := mul64_requiredBuckets bv.bitCount
  have hl := h.1
  have hble : bit ≤ 64 * bv.bucketVector.length := by omega
  rw [numSetBitsBefore_eq_cardBelow bv bit hble, numSetBits,
    numSetBitsBefore_eq_cardBelow bv _ (by omega)]
  rw [show bv.bucketVector.length * 64 = 64 * bv.bucketVector.length by ring]
  rw [cardBelow_split bv hble]
  have hpos : 0 < ((Finset.Ico bit (64 * bv.bucketVector.length)).filter
      fun p => bvGet bv p = true).card := by
    rw [Finset.card_pos]
    exact ⟨bit, Finset.mem_filter.mpr ⟨Finset.mem_Ico.mpr ⟨le_refl bit, by omega⟩, hset⟩⟩
  omega

/-- What the first branch's fold computes: the window of positions starting at
the running counter receives the membership bits of the walked list. -/
lemma foldl_branch1 (b : BitVector) :
    ∀ (l : List ℕ) (acc : BitVector) (pos0 : ℕ), WF acc →
      pos0 + l.length ≤ acc.bitCount →
      WF (l.foldl (branch1Step b) (acc, pos0)).1 ∧
      (l.foldl (branch1Step b) (acc, pos0)).1.bitCount = acc.bitCount ∧
      ∀ p, bvGet (l.foldl (branch1Step b) (acc, pos0)).1 p =
        if pos0 ≤ p ∧ p - pos0 < l.length then
          bvGet acc p || bvGet b (l.getD (p - pos0) 0)
        else bvGet acc p := by
  intro l
  induction l with
  | nil =>
    intro acc pos0 hacc _
    refine ⟨hacc, rfl, fun p => ?_⟩
    rw [List.foldl_nil, if_neg (by rintro ⟨_, h2⟩; simp at h2)]
  | cons bit rest ih =>
    intro acc pos0 hacc hlen
    rw [List.length_cons] at hlen
    rw [List.foldl_cons]
    have hpos0 : pos0 < acc.bitCount := by omega
    by_cases hbit : bvGet b bit = true
    · have hstep : branch1Step b (acc, pos0) bit = (bvSet acc pos0 true, pos0 + 1) := by
        rw [branch1Step]
        dsimp only
        rw [if_pos hbit]
      rw [hstep]
      obtain ⟨hwf, hbc, hget⟩ := ih (bvSet acc pos0 true) (pos0 + 1)
        (wf_bvSet hacc hpos0 true)
        (by rw [bvSet_bitCount]; omega)
      refine ⟨hwf, by rw [hbc, bvSet_bitCount], fun p => ?_⟩
      rw [hget p, bvGet_bvSet hacc hpos0 true p]
      by_cases hp0 : p = pos0
      · subst hp0
        rw [if_neg (by rintro ⟨h1, h2⟩; omega), if_pos rfl,
          if_pos ⟨le_refl _, by rw [List.length_cons]; omega⟩]
        simp [hbit]
      · rw [if_neg hp0]
        by_cases hwin : pos0 + 1 ≤ p ∧ p - (pos0 + 1) < rest.length
        · rw [if_pos hwin, if_pos ⟨by omega, by rw [List.length_cons]; omega⟩]
          have hidx : (bit :: rest).getD (p - pos0) 0 = rest.getD (p - (pos0 + 1)) 0 := by
            have : p - pos0 = (p - (pos0 + 1)) + 1 := by omega
            rw [this, List.getD_cons_succ]
          rw [hidx]
        · rw [if_neg hwin, if_neg]
          rintro ⟨h1, h2⟩
          rw [List.length_cons] at h2
          exact hwin ⟨by omega, by omega⟩
    · have hstep : branch1Step b (acc, pos0) bit = (acc, pos0 + 1) := by
        rw [branch1Step]
        dsimp only
        rw [if_neg hbit]
      rw [hstep]
      obtain ⟨hwf, hbc, hget⟩ := ih acc (pos0 + 1) hacc (by omega)
      refine ⟨hwf, hbc, fun p => ?_⟩
      rw [hget p]
      by_cases hp0 : p = pos0
      · subst hp0
        rw [if_neg (by rintro ⟨h1, h2⟩; omega),
          if_pos ⟨le_refl _, by rw [List.length_cons]; omega⟩]
        rw [Nat.sub_self, List.getD_cons_zero]
        have hbf : bvGet b bit = false := by simpa using hbit
        simp [hbf]
      · by_cases hwin : pos0 + 1 ≤ p ∧ p - (pos0 + 1) < rest.length
        · rw [if_pos hwin, if_pos ⟨by omega, by rw [List.length_cons]; omega⟩]
          have hidx : (bit :: rest).getD (p - pos0) 0 = rest.getD (p - (pos0 + 1)) 0 := by
            have : p - pos0 = (p - (pos0 + 1)) + 1 := by omega
            rw [this, List.getD_cons_succ]
          rw [hidx]
        · rw [if_neg hwin, if_neg]
          rintro ⟨h1, h2⟩
          rw [List.length_cons] at h2
          exact hwin ⟨by omega, by omega⟩

/-- What the second branch's fold computes: a position holds iff some walked
bit passes the filter with that rank. -/
lemma foldl_branch2 (filterBv : BitVector) :
    ∀ (l : List ℕ) (acc : BitVector), WF acc →
      (∀ bit ∈ l, bvGet filterBv bit = true →
        numSetBitsBefore filterBv bit < acc.bitCount) →
      WF (l.foldl (branch2Step filterBv) acc) ∧
      (l.foldl (branch2Step filterBv) acc).bitCount = acc.bitCount ∧
      ∀ p, bvGet (l.foldl (branch2Step filterBv) acc) p =
        (bvGet acc p || l.any fun bit =>
          bvGet filterBv bit && decide (numSetBitsBefore filterBv bit = p)) := by
  intro l
  induction l with
  | nil =>
    intro acc hacc _
    refine ⟨hacc, rfl, fun p => ?_⟩
    simp
  | cons bit rest ih =>
    intro acc hacc hrank
    rw [List.foldl_cons]
    by_cases hfb : bvGet filterBv bit = true
    · have hstep : branch2Step filterBv acc bit
          = bvSet acc (numSetBitsBefore filterBv bit) true := by
        rw [branch2Step, if_pos hfb]
      have hrb : numSetBitsBefore filterBv bit < acc.bitCount :=
        hrank bit (List.mem_cons_self bit rest) hfb
      rw [hstep]
      obtain ⟨hwf, hbc, hget⟩ := ih (bvSet acc (numSetBitsBefore filterBv bit) true)
        (wf_bvSet hacc hrb true)
        (fun b' hb' hf' => by
          rw [bvSet_bitCount]
          exact hrank b' (List.mem_cons_of_mem bit hb') hf')
      refine ⟨hwf, by rw [hbc, bvSet_bitCount], fun p => ?_⟩
      rw [hget p, bvGet_bvSet hacc hrb true p, List.any_cons]
      by_cases hpr : p = numSetBitsBefore filterBv bit
      · rw [if_pos hpr]
        simp [hfb, hpr]
      · rw [if_neg hpr]
        have : decide (numSetBitsBefore filterBv bit = p) = false := by
          simp
          omega
        rw [this]
        simp [hfb]
    · have hstep : branch2Step filterBv acc bit = acc := by
        rw [branch2Step, if_neg hfb]
      rw [hstep]
      obtain ⟨hwf, hbc, hget⟩ := ih acc hacc
        (fun b' hb' hf' => hrank b' (List.mem_cons_of_mem bit hb') hf')
      refine ⟨hwf, hbc, fun p => ?_⟩
      rw [hget p, List.any_cons]
      have hbf : bvGet filterBv bit = false := by simpa using hfb
      simp [hbf]

/-- C9: on same-length well-formed vectors, the two heuristic branches of
`BitVector::operator%` compute the same result: a vector of length
`filter.getNumberOfSetBits()` whose i-th bit is set iff the i-th set bit of
the filter, in increasing index order, is also set in `b`. -/
theorem c9_branch_equivalence {b filterBv : BitVector} (hb : WF b) (hf : WF filterBv)
    (hbc : b.bitCount = filterBv.bitCount) :
    bvModFilterBranch b filterBv = bvModSelfBranch b filterBv ∧
    (bvMod b filterBv).bitCount = numSetBits filterBv ∧
    ∀ (i : ℕ) (hi : i < (setIndices filterBv).length),
      bvGet (bvMod b filterBv) i = bvGet b ((setIndices filterBv).get ⟨i, hi⟩) := by
  have hz : WF (mkBitVector (numSetBits filterBv) false) := wf_mkBitVector _ false
  have hlenf : (setIndices filterBv).length = numSetBits filterBv :=
    (numSetBits_eq_length hf).symm
  obtain ⟨hwf1, hbc1, hget1⟩ := foldl_branch1 b (setIndices filterBv)
    (mkBitVector (numSetBits filterBv) false) 0 hz
    (by rw [mkBitVector_false_bitCount, hlenf]; omega)
  obtain ⟨hwf2, hbc2, hget2⟩ := foldl_branch2 filterBv (setIndices b)
    (mkBitVector (numSetBits filterBv) false) hz
    (by
      intro bit hmem hfb
      rw [mkBitVector_false_bitCount]
      have hlt : bit < filterBv.bitCount := by
        have hm := (List.mem_filter.mp hmem).1
        rw [List.mem_range] at hm
        omega
      exact rank_lt_numSetBits hf hlt hfb)
  have e1 : bvModFilterBranch b filterBv
      = ((setIndices filterBv).foldl (branch1Step b)
          (mkBitVector (numSetBits filterBv) false, 0)).1 := rfl
  have e2 : bvModSelfBranch b filterBv
      = (setIndices b).foldl (branch2Step filterBv)
          (mkBitVector (numSetBits filterBv) false) := rfl
  have hpt : ∀ (p : ℕ) (hp : p < (setIndices filterBv).length),
      bvGet b ((setIndices filterBv).get ⟨p, hp⟩)
        = ((setIndices b).any fun bit =>
            bvGet filterBv bit && decide (numSetBitsBefore filterBv bit = p)) := by
    intro p hp
    have hmemf : (setIndices filterBv).get ⟨p, hp⟩ ∈ setIndices filterBv :=
      (setIndices filterBv).get_mem p hp
    have hmemf' := List.mem_filter.mp hmemf
    have hfset : bvGet filterBv ((setIndices filterBv).get ⟨p, hp⟩) = true := by
      simpa using hmemf'.2
    have hflt : (setIndices filterBv).get ⟨p, hp⟩ < filterBv.bitCount := by
      have hm := hmemf'.1
      rw [List.mem_range] at hm
      exact hm
    have hble := mul64_requiredBuckets filterBv.bitCount
    have hrank : numSetBitsBefore filterBv ((setIndices filterBv).get ⟨p, hp⟩) = p := by
      rw [numSetBitsBefore_eq_length (by rw [hf.1]; omega)]
      exact rank_of_get (fun i => bvGet filterBv i) filterBv.bitCount p hp
    cases hv : bvGet b ((setIndices filterBv).get ⟨p, hp⟩) with
    | true =>
      symm
      rw [List.any_eq_true]
      refine ⟨(setIndices filterBv).get ⟨p, hp⟩, ?_, ?_⟩
      · rw [setIndices, List.mem_filter, List.mem_range]
        refine ⟨by omega, by simpa using hv⟩
      · rw [hfset, hrank]
        simp
    | false =>
      symm
      by_contra hcon
      rw [Bool.not_eq_false, List.any_eq_true] at hcon
      obtain ⟨bit, hmemb, hpred⟩ := hcon
      rcases Bool.and_eq_true _ _ |>.mp hpred with ⟨hfbit, hdec⟩
      have hrankbit : numSetBitsBefore filterBv bit = p := of_decide_eq_true hdec
      have hmemb' := List.mem_filter.mp hmemb
      have hbbit : bvGet b bit = true := by simpa using hmemb'.2
      have hbitlt : bit < b.bitCount := by
        have hm := hmemb'.1
        rw [List.mem_range] at hm
        exact hm
      have hbitf : bit ∈ setIndices filterBv := by
        rw [setIndices, List.mem_filter, List.mem_range]
        exact ⟨by omega, by simpa using hfbit⟩
      have hranklen : ((List.range bit).filter fun i => bvGet filterBv i).length = p := by
        rw [← numSetBitsBefore_eq_length (by rw [hf.1]; omega)]
        exact hrankbit
      obtain ⟨hk, hgetk⟩ := get_of_rank hbitf hranklen
      have hsame : (setIndices filterBv).get ⟨p, hp⟩ = bit := by
        rw [← hgetk]
        rfl
      rw [hsame, hbbit] at hv
      exact Bool.noConfusion hv
  have hbcr : (bvModFilterBranch b filterBv).bitCount = numSetBits filterBv := by
    rw [e1, hbc1, mkBitVector_false_bitCount]
  have heq : bvModFilterBranch b filterBv = bvModSelfBranch b filterBv := by
    refine eq_of_pointwise hwf1 hwf2 (by rw [e1, e2, hbc1, hbc2]) ?_
    intro i hi
    rw [hbcr] at hi
    rw [e1, e2, hget1 i, hget2 i, if_pos ⟨Nat.zero_le i, by omega⟩,
      bvGet_mkBitVector_false]
    simp only [Bool.false_or, Nat.sub_zero]
    have hi' : i < (setIndices filterBv).length := by omega
    rw [List.getD_eq_getElem _ _ hi']
    have hg : (setIndices filterBv)[i] = (setIndices filterBv).get ⟨i, hi'⟩ := rfl
    rw [hg]
    exact hpt i hi'
  have hmod : bvMod b filterBv = bvModFilterBranch b filterBv := by
    rw [bvMod]
    split
    · rfl
    · exact heq.symm
  refine ⟨heq, by rw [hmod, hbcr], ?_⟩
  intro i hi
  rw [hmod, e1, hget1 i, if_pos ⟨Nat.zero_le i, by omega⟩, bvGet_mkBitVector_false]
  simp only [Bool.false_or, Nat.sub_zero]
  rw [List.getD_eq_getElem _ _ hi]
  rfl

/-- Concrete 70-bit operands exercising both branches of `operator%`. -/
def bC9 : BitVector :=
  bvSet (bvSet (bvSet (bvSet (mkBitVector 70 false) 0 true) 3 true) 64 true) 69 true

/-- The filter operand paired with `bC9`. -/
def fC9 : BitVector :=
  bvSet (bvSet (bvSet (bvSet (bvSet (mkBitVector 70 false) 0 true) 1 true) 64 true)
    69 true) 5 true

theorem c9_branch_equivalence_witness :
    WF bC9 ∧ WF fC9 ∧ bC9.bitCount = fC9.bitCount ∧
    (bvModFilterBranch bC9 fC9 = bvModSelfBranch bC9 fC9 ∧
      (bvMod bC9 fC9).bitCount = numSetBits fC9 ∧
      ∀ (i : ℕ) (hi : i < (setIndices fC9).length),
        bvGet (bvMod bC9 fC9) i = bvGet bC9 ((setIndices fC9).get ⟨i, hi⟩)) :=
  ⟨by decide, by decide, by decide,
    c9_branch_equivalence (by decide) (by decide) (by decide)⟩

/-- State of a `MarkovAutomaton`: the transition matrix given as its row
groups (one list of choice rows per state), the Markovian-state set, the
exit-rate vector, and the cached `closed` flag. -/
structure MarkovAutomaton (n : ℕ) where
  matrix : Fin n → List (Fin n → ℚ)
  markovianStates : Fin n → Bool
  exitRates : Fin n → ℚ
  closed : Bool

/-- `MarkovAutomaton::checkIsClosed`: no Markovian state has a row group of
more than one choice. -/
def checkIsClosed {n : ℕ} (ma : MarkovAutomaton n) : Bool :=
  decide (∀ s, ma.markovianStates s = true → (ma.matrix s).length ≤ 1)

/-- `MarkovAutomaton::isClosed`: returns the cached flag. -/
def isClosed {n : ℕ} (ma : MarkovAutomaton n) : Bool := ma.closed

/-- `MarkovAutomaton::isHybridState`: Markovian with more than one choice. -/
def hybrid {n : ℕ} (ma : MarkovAutomaton n) (s : Fin n) : Prop :=
  ma.markovianStates s = true ∧ 1 < (ma.matrix s).length

instance {n : ℕ} (ma : MarkovAutomaton n) (s : Fin n) : Decidable (hybrid ma s) := by
  unfold hybrid
  infer_instance

/-- `MarkovAutomaton::close`: on a not-yet-closed automaton, drop the first
choice of every hybrid state, make those states non-Markovian with exit rate
zero, and set the flag. Modelled from the spec: the `buildSubsystem` call
keeps every state and removes exactly the un-kept rows, which for a hybrid
state is the first row of its group. -/
def close {n : ℕ} (ma : MarkovAutomaton n) : MarkovAutomaton n :=
  if ma.closed then ma
  else
    ⟨fun s => if hybrid ma s then (ma.matrix s).tail else ma.matrix s,
      fun s => if hybrid ma s then false else ma.markovianStates s,
      fun s => if hybrid ma s then 0 else ma.exitRates s,
      true⟩

/-- C10: provided every state has at least one choice and the cached flag is
sound (it is established from `checkIsClosed` on construction), after
`close()` every Markovian state has exactly one choice, `checkIsClosed` and
`isClosed` hold, closing a closed automaton changes nothing, and `close` is
idempotent. -/
theorem c10_close_establishes_closed {n : ℕ} (ma : MarkovAutomaton n)
    (hne : ∀ s, ma.matrix s ≠ [])
    (hinv : ma.closed = true → checkIsClosed ma = true) :
    checkIsClosed (close ma) = true ∧
    (∀ s, (close ma).markovianStates s = true → ((close ma).matrix s).length = 1) ∧
    isClosed (close ma) = true ∧
    (isClosed ma = true → close ma = ma) ∧
    close (close ma) = close ma := by
  have hmain : checkIsClosed (close ma) = true ∧
      (∀ s, (close ma).markovianStates s = true →
        ((close ma).matrix s).length = 1) ∧
      isClosed (close ma) = true ∧
      (isClosed ma = true → close ma = ma) := by
    by_cases hc : ma.closed = true
    · have hcm : close ma = ma := by rw [close, if_pos hc]
      have hchk := hinv hc
      refine ⟨by rw [hcm]; exact hchk, ?_, by rw [isClosed, hcm]; exact hc,
        fun _ => hcm⟩
      rw [checkIsClosed, decide_eq_true_eq] at hchk
      intro s hs
      rw [hcm] at hs ⊢
      have hle := hchk s hs
      have hpos : 0 < (ma.matrix s).length := List.length_pos.mpr (hne s)
      omega
    · have hcm : close ma
          = ⟨fun s => if hybrid ma s then (ma.matrix s).tail else ma.matrix s,
              fun s => if hybrid ma s then false else ma.markovianStates s,
              fun s => if hybrid ma s then 0 else ma.exitRates s,
              true⟩ := by
        rw [close, if_neg hc]
      refine ⟨?_, ?_, by rw [isClosed, hcm], fun habs => absurd habs hc⟩
      · rw [hcm, checkIsClosed, decide_eq_true_eq]
        intro s hs
        dsimp only at hs ⊢
        by_cases hh : hybrid ma s
        · rw [if_pos hh] at hs
          exact Bool.noConfusion hs
        · rw [if_neg hh] at hs
          rw [if_neg hh]
          have hn1 : ¬(1 < (ma.matrix s).length) := fun h1 => hh ⟨hs, h1⟩
          omega
      · intro s hs
        rw [hcm] at hs ⊢
        dsimp only at hs ⊢
        by_cases hh : hybrid ma s
        · rw [if_pos hh] at hs
          exact Bool.noConfusion hs
        · rw [if_neg hh] at hs
          rw [if_neg hh]
          have hn1 : ¬(1 < (ma.matrix s).length) := fun h1 => hh ⟨hs, h1⟩
          have hpos : 0 < (ma.matrix s).length := List.length_pos.mpr (hne s)
          omega
  refine ⟨hmain.1, hmain.2.1, hmain.2.2.1, hmain.2.2.2, ?_⟩
  have hcl : (close ma).closed = true := hmain.2.2.1
  rw [close, if_pos hcl]

/-- A two-state automaton with a hybrid Markovian state, not yet closed. -/
def maC10 : MarkovAutomaton 2 :=
  ⟨fun s => if s = 0 then [fun _ => 0, fun _ => 0] else [fun _ => 0],
    fun s => decide (s = 0),
    fun _ => 0,
    false⟩

theorem c10_close_establishes_closed_witness :
    (∀ s, maC10.matrix s ≠ []) ∧
    (maC10.closed = true → checkIsClosed maC10 = true) ∧
    (checkIsClosed (close maC10) = true ∧
      (∀ s, (close maC10).markovianStates s = true →
        ((close maC10).matrix s).length = 1) ∧
      isClosed (close maC10) = true ∧
      (isClosed maC10 = true → close maC10 = maC10) ∧
      close (close maC10) = close maC10) :=
  ⟨by decide, by decide,
    c10_close_establishes_closed maC10 (by decide) (by decide)⟩

end StormVerify
